import Mathlib

/-!
Verification development for the recipe-generation application in `src/app.py`.

The application's logic is embedded shallowly:
* `extract_nutrition_info` models the regular-expression extraction of the four
  nutrition fields (app.py lines 15-51).  Python's `re.search` with the pattern
  `<label>\s*[：:]\s*(\d+(\.\d+)?)\s*<unit>` is modelled by `searchPat`, a
  leftmost-match scanner whose greedy behaviour is proved equivalent to a
  declarative decomposition predicate (`PatOccur`).
* `recipe_form_submit` models the submit-handler of the generation form
  (app.py lines 127-195), including validation, the AI call outcome, and the
  appends to the session history and nutrition ledger.
* `convert_df_to_csv` models the CSV export (app.py lines 216-226) together
  with a CSV reader used to state the round-trip property.

Machine floats of the Python program are modelled as rationals (`ℚ`): every
numeric value handled by the program is a short decimal literal, which `ℚ`
represents exactly.  Character strings are modelled as `List Char` (Python
strings are sequences of Unicode code points, as are Lean `String.data`).
-/

/-- Code points of the characters Python's `\s` matches in str patterns:
the Unicode whitespace set, which is also exactly the set `str.isspace()`
accepts and `str.strip()` removes (it includes U+3000, the ideographic
space). -/
def wsCodes : List Nat :=
  [9, 10, 11, 12, 13, 28, 29, 30, 31, 32, 133, 160, 5760, 8192, 8193, 8194,
   8195, 8196, 8197, 8198, 8199, 8200, 8201, 8202, 8232, 8233, 8239, 8287,
   12288]

/-- Python's `\s` character class (Unicode whitespace). -/
def isWsC (c : Char) : Bool :=
  wsCodes.any (fun n => c.toNat == n)

/-- First code points of the 66 runs of Unicode decimal digits (category
Nd).  Each run is ten consecutive code points carrying the digit values
0-9 in order; U+FF10 (65296) starts the full-width run ０-９. -/
def digitStarts : List Nat :=
  [48, 1632, 1776, 1984, 2406, 2534, 2662, 2790, 2918, 3046, 3174, 3302,
   3430, 3558, 3664, 3792, 3872, 4160, 4240, 6112, 6160, 6470, 6608, 6784,
   6800, 6992, 7088, 7232, 7248, 42528, 43216, 43264, 43472, 43504, 43600,
   44016, 65296, 66720, 68912, 69734, 69872, 69942, 70096, 70384, 70736,
   70864, 71248, 71360, 71472, 71904, 72016, 72784, 73040, 73120, 92768,
   92864, 93008, 120782, 120792, 120802, 120812, 120822, 123200, 123632,
   125264, 130032]

/-- Python's `\d` character class in str patterns: any Unicode decimal
digit (category Nd), e.g. both `350` and `３５０`. -/
def isDigitC (c : Char) : Bool :=
  digitStarts.any (fun s => s ≤ c.toNat && c.toNat ≤ s + 9)

/-- The character class `[：:]` of the patterns in app.py lines 31-34:
either the full-width or the ASCII colon. -/
def isColonC (c : Char) : Bool :=
  c = ':' || c = '：'

/-- Remove a leading occurrence of `p` from `l`, failing when `p` is not a
prefix of `l` (the literal part of a regex match). -/
def stripPre : List Char → List Char → Option (List Char)
  | [], l => some l
  | _ :: _, [] => none
  | a :: ps, b :: ls => if a = b then stripPre ps ls else none

/-- Greedy `\s*`. -/
def dropWs (l : List Char) : List Char := l.dropWhile isWsC

/-- Greedy `\d*` (capture part). -/
def takeDigits (l : List Char) : List Char := l.takeWhile isDigitC

/-- Greedy `\d*` (remainder part). -/
def dropDigits (l : List Char) : List Char := l.dropWhile isDigitC

/-- The optional fractional group `(\.\d+)?` of the patterns: when the input
starts with `.` followed by at least one digit, return the greedily captured
`.digits` part and the remainder. -/
def matchFrac (l : List Char) : Option (List Char × List Char) :=
  match l with
  | '.' :: r =>
      if takeDigits r = [] then none
      else some ('.' :: takeDigits r, dropDigits r)
  | _ => none

/-- Matching of `(\d+(\.\d+)?)\s*<unit>` at the start of `l`, returning the
text captured by group 1.  As in the regex engine, the fractional group is
tried greedily first and dropped on backtracking. -/
def matchNumTail (unit l : List Char) : Option (List Char) :=
  let ds := takeDigits l
  if ds = [] then none
  else
    let r := dropDigits l
    match matchFrac r with
    | some fr =>
        if (stripPre unit (dropWs fr.2)).isSome then some (ds ++ fr.1)
        else if (stripPre unit (dropWs r)).isSome then some ds
        else none
    | none =>
        if (stripPre unit (dropWs r)).isSome then some ds else none

/-- Matching of the whole pattern `<label>\s*[：:]\s*(\d+(\.\d+)?)\s*<unit>`
anchored at the start of `l`, returning the text captured by group 1. -/
def matchAtPos (label unit l : List Char) : Option (List Char) :=
  match stripPre label l with
  | none => none
  | some r1 =>
      match dropWs r1 with
      | [] => none
      | c :: r2 => if isColonC c then matchNumTail unit (dropWs r2) else none

/-- Python's `re.search`: try the anchored match at every position from the
left and return the first success (app.py line 39). -/
def searchPat (label unit : List Char) : List Char → Option (List Char)
  | [] => matchAtPos label unit []
  | c :: cs =>
      match matchAtPos label unit (c :: cs) with
      | some cap => some cap
      | none => searchPat label unit cs

/-- Numeric value of a decimal digit character, as Python's `float` reads
it: the offset inside the digit's Nd run (`'3'` and `'３'` both map to 3). -/
def digitVal (c : Char) : Nat :=
  match digitStarts.find? (fun s => s ≤ c.toNat && c.toNat ≤ s + 9) with
  | some s => c.toNat - s
  | none => 0

/-- Value of a digit string read in base 10. -/
def digitsVal (l : List Char) : Nat :=
  l.foldl (fun a c => 10 * a + digitVal c) 0

/-- Python's `float` applied to the text captured by group 1 (always of the
form `digits` or `digits.digits`), as an exact rational (app.py line 42). -/
def parseDecimal (l : List Char) : ℚ :=
  let ds := l.takeWhile isDigitC
  match l.dropWhile isDigitC with
  | '.' :: fs =>
      (digitsVal ds : ℚ) +
        (digitsVal (fs.takeWhile isDigitC) : ℚ) / (10 : ℚ) ^ (fs.takeWhile isDigitC).length
  | _ => (digitsVal ds : ℚ)

/-- The extraction result: the `nutrition` dictionary of app.py lines 20-25.
The keys カロリー(kcal), タンパク質(g), 脂質(g), 炭水化物(g) are the fields
`calories`, `protein`, `fat`, `carbs`. -/
structure Nutrition where
  calories : ℚ
  protein : ℚ
  fat : ℚ
  carbs : ℚ
deriving DecidableEq

/-- Label of the calories pattern (app.py line 31). -/
def calLabel : List Char := "カロリー".data

/-- Label of the protein pattern (app.py line 32). -/
def protLabel : List Char := "タンパク質".data

/-- Label of the fat pattern (app.py line 33). -/
def fatLabel : List Char := "脂質".data

/-- Label of the carbohydrate pattern (app.py line 34). -/
def carbLabel : List Char := "炭水化物".data

/-- Unit token of the calories pattern. -/
def kcalUnit : List Char := "kcal".data

/-- Unit token of the three mass patterns. -/
def gUnit : List Char := "g".data

/-- One entry of the `patterns` loop of app.py lines 38-48: search for the
pattern, parse the captured number on success, keep the initial `0.0`
otherwise.  (`float` never raises on the captured text, so the `except
ValueError` branch of line 45 is unreachable.) -/
def fieldVal (label unit l : List Char) : ℚ :=
  match searchPat label unit l with
  | some cap => parseDecimal cap
  | none => 0

/-- `extract_nutrition_info` of app.py lines 15-51 (the sidebar diagnostics
of lines 44-48 are I/O only and have no effect on the returned value). -/
def extract_nutrition_info (l : List Char) : Nutrition :=
  ⟨fieldVal calLabel kcalUnit l, fieldVal protLabel gUnit l,
   fieldVal fatLabel gUnit l, fieldVal carbLabel gUnit l⟩

/-- The four (label, unit) pairs of the `patterns` dict (app.py lines 30-35). -/
def fieldPatterns : List (List Char × List Char) :=
  [(calLabel, kcalUnit), (protLabel, gUnit), (fatLabel, gUnit), (carbLabel, gUnit)]

/-- Projection of the extraction result selected by a pattern label. -/
def nutritionField (label : List Char) (n : Nutrition) : ℚ :=
  if label = calLabel then n.calories
  else if label = protLabel then n.protein
  else if label = fatLabel then n.fat
  else n.carbs

/-- Code points `str.splitlines()` splits on: LF, VT, FF, CR, FS, GS, RS,
NEL, LINE SEPARATOR and PARAGRAPH SEPARATOR (CR LF counts as one break). -/
def breakCodes : List Nat :=
  [10, 11, 12, 13, 28, 29, 30, 133, 8232, 8233]

/-- True when `c` is one of the line-break characters `str.splitlines()`
splits on. -/
def isBreakC (c : Char) : Bool :=
  breakCodes.any (fun n => c.toNat == n)

/-- Worker for `pySplitlines`: `acc` holds the reversed current line. -/
def pySplitlinesAux : List Char → List Char → List (List Char)
  | acc, [] => match acc with | [] => [] | _ :: _ => [acc.reverse]
  | acc, '\r' :: '\n' :: rest => acc.reverse :: pySplitlinesAux [] rest
  | acc, c :: rest =>
      if isBreakC c then acc.reverse :: pySplitlinesAux [] rest
      else pySplitlinesAux (c :: acc) rest

/-- Python's `str.splitlines()`: split on line breaks, treating `\r\n` as a
single break and producing no trailing empty line. -/
def pySplitlines (l : List Char) : List (List Char) :=
  pySplitlinesAux [] l

/-- Python's `str.replace(pat, rep)` for a non-empty pattern: replace every
non-overlapping occurrence from the left.  (The application only replaces the
non-empty literal `レシピ名：`.) -/
def pyReplace (pat rep : List Char) : List Char → List Char
  | [] => []
  | c :: cs =>
      if h : pat ≠ [] ∧ pat.isPrefixOf (c :: cs) then
        rep ++ pyReplace pat rep ((c :: cs).drop pat.length)
      else c :: pyReplace pat rep cs
termination_by l => l.length
decreasing_by
  · simp only [List.length_drop, List.length_cons]
    have hp : 1 ≤ pat.length := by
      cases pat with
      | nil => exact absurd rfl h.1
      | cons a as => simp
    omega
  · simp

/-- Python's `str.strip()` (whitespace stripped from both ends). -/
def pyStrip (l : List Char) : List Char :=
  ((l.dropWhile isWsC).reverse.dropWhile isWsC).reverse

/-- Python's `sub in s` substring test. -/
def occursB (pat : List Char) : List Char → Bool
  | [] => pat.isPrefixOf []
  | c :: cs => pat.isPrefixOf (c :: cs) || occursB pat cs

/-- The literal `レシピ名：` of app.py line 167. -/
def recipeLabel : List Char := "レシピ名：".data

/-- The fallback sentinel `不明なレシピ` of app.py line 167. -/
def unknownRecipe : List Char := "不明なレシピ".data

/-- The recipe-name expression of app.py line 167:
`recipe_text.splitlines()[0].replace("レシピ名：", "").strip()` when
`"レシピ名：" in recipe_text`, else `"不明なレシピ"`.  (In the taken branch
`recipe_text` is non-empty, so `splitlines()` is non-empty and the `[0]`
indexing of the source cannot fail; `headD` is that total indexing.) -/
def recipeNameOf (text : List Char) : List Char :=
  if occursB recipeLabel text then
    pyStrip (pyReplace recipeLabel [] ((pySplitlines text).headD []))
  else unknownRecipe

/-- Python's `str.split(sep)` for a one-character separator. -/
def pySplitOn (sep : Char) : List Char → List (List Char)
  | [] => [[]]
  | c :: rest =>
      if c = sep then [] :: pySplitOn sep rest
      else
        match pySplitOn sep rest with
        | [] => [[c]]
        | g :: gs => (c :: g) :: gs

/-- Python's `sep.join(parts)`. -/
def joinSep (sep : List Char) : List (List Char) → List Char
  | [] => []
  | [x] => x
  | x :: y :: xs => x ++ sep ++ joinSep sep (y :: xs)

/-- `formatted_ingredients` of app.py line 133:
`", ".join([ing.strip() for ing in ingredients_input.split(',') if ing.strip()])`. -/
def formattedIngredients (l : List Char) : List Char :=
  joinSep (", ".data)
    (((pySplitOn ',' l).map pyStrip).filter (fun s => s ≠ []))

/-- One ledger row of `st.session_state.nutrition_data`
(app.py lines 57-60 and 165-172). -/
structure NutritionRow where
  date : List Char
  recipeName : List Char
  calories : ℚ
  protein : ℚ
  fat : ℚ
  carbs : ℚ
deriving DecidableEq

/-- One history entry of `st.session_state.generated_recipes`
(app.py lines 179-190). -/
structure RecipeRecord where
  ingredients : List Char
  genre : List Char
  purpose : List Char
  cookingTime : Nat
  allergies : List Char
  recipeText : List Char
  nutritionInfo : Nutrition
  timestamp : List Char
deriving DecidableEq

/-- The session state owned by the application: the history list and the
nutrition ledger (app.py lines 54-60). -/
structure AppState where
  generated_recipes : List RecipeRecord
  nutrition_data : List NutritionRow
deriving DecidableEq

/-- The session state right after initialization (app.py lines 54-60). -/
def initialState : AppState := ⟨[], []⟩

/-- The form values of one submitted generation request, together with the
two wall-clock readings of app.py lines 166 and 189 (`Timestamp.now()`
formatted as a date and as a full timestamp), which are external inputs. -/
structure GenRequest where
  ingredients : List Char
  genre : List Char
  purpose : List Char
  cookingTime : Nat
  allergies : List Char
  nowDate : List Char
  nowTs : List Char
deriving DecidableEq

/-- Outcome of the external AI collaborator call (app.py line 156): a
response text, or any raised exception. -/
inductive AIResult where
  | ok (text : List Char)
  | err
deriving DecidableEq

/-- Terminal state of a single generation request: the empty-input warning of
line 129, the caught-exception error message of lines 193-195, or the success
message of line 191. -/
inductive Outcome where
  | rejected
  | failed
  | succeeded
deriving DecidableEq

/-- The ledger row built at app.py lines 165-172 for a successful response. -/
def newNutritionRow (req : GenRequest) (recipeText : List Char) : NutritionRow :=
  ⟨req.nowDate, recipeNameOf recipeText,
   (extract_nutrition_info recipeText).calories,
   (extract_nutrition_info recipeText).protein,
   (extract_nutrition_info recipeText).fat,
   (extract_nutrition_info recipeText).carbs⟩

/-- The history entry built at app.py lines 179-190 for a successful
response. -/
def newRecipeRecord (req : GenRequest) (recipeText : List Char) : RecipeRecord :=
  ⟨req.ingredients, req.genre, req.purpose, req.cookingTime, req.allergies,
   recipeText, extract_nutrition_info recipeText, req.nowTs⟩

/-- The submit handler of app.py lines 127-195.  Returns the new session
state, the request outcome, and whether the AI collaborator was called.
An empty ingredients input is rejected before any AI call (lines 128-129);
an exception from the call reaches the `except` handler with the state
untouched (lines 193-195); a response appends one row to the ledger (lines
174-177) and one entry to the history (lines 179-190). -/
def recipe_form_submit (st : AppState) (req : GenRequest) (ai : AIResult) :
    AppState × Outcome × Bool :=
  if req.ingredients = [] then (st, Outcome.rejected, false)
  else
    match ai with
    | AIResult.err => (st, Outcome.failed, true)
    | AIResult.ok recipeText =>
        (⟨st.generated_recipes ++ [newRecipeRecord req recipeText],
          st.nutrition_data ++ [newNutritionRow req recipeText]⟩,
         Outcome.succeeded, true)

/-- A whole session: the submit handler applied to a sequence of requests
with their collaborator outcomes. -/
def runEvents (st : AppState) : List (GenRequest × AIResult) → AppState
  | [] => st
  | e :: es => runEvents (recipe_form_submit st e.1 e.2).1 es

/-- A request that reaches the success message (its outcome does not depend
on the session state, so it is evaluated at `initialState`). -/
def succeedsEvent (e : GenRequest × AIResult) : Bool :=
  (recipe_form_submit initialState e.1 e.2).2.1 = Outcome.succeeded

/-- Number of successful generations in a sequence of requests. -/
def countSuccesses (events : List (GenRequest × AIResult)) : Nat :=
  events.countP succeedsEvent

/-- A CSV field needs quoting when it contains the delimiter, the quote
character, or a line break (pandas' minimal-quoting rule). -/
def needsQuote (f : List Char) : Bool :=
  f.any (fun c => c = ',' || c = '"' || c = '\n' || c = '\r')

/-- Double every quote character (the CSV escape inside a quoted field). -/
def escapeQ : List Char → List Char
  | [] => []
  | '"' :: r => '"' :: '"' :: escapeQ r
  | c :: r => c :: escapeQ r

/-- Render one CSV field with minimal quoting. -/
def renderFieldCSV (f : List Char) : List Char :=
  if needsQuote f then '"' :: (escapeQ f ++ ['"']) else f

/-- Render one CSV record: comma-separated fields, newline-terminated. -/
def renderRecordCSV (cells : List (List Char)) : List Char :=
  joinSep [','] (cells.map renderFieldCSV) ++ ['\n']

/-- Render a CSV table, one record per line. -/
def renderTableCSV (t : List (List (List Char))) : List Char :=
  (t.map renderRecordCSV).flatten

/-- First decimal exponent `k < 100` with `d ∣ 10 ^ k` (100 far exceeds any
fraction length the extractor can produce from a bounded response). -/
def decExp (d : Nat) : Nat :=
  (((List.range 100).find? (fun k => decide (d ∣ 10 ^ k)))).getD 0

/-- The decimal digit characters. -/
def digitChar (n : Nat) : Char :=
  match n with
  | 0 => '0' | 1 => '1' | 2 => '2' | 3 => '3' | 4 => '4'
  | 5 => '5' | 6 => '6' | 7 => '7' | 8 => '8' | _ => '9'

/-- Decimal digit string of a natural number (no leading zeros, `0 ↦ "0"`). -/
def natDigits (n : Nat) : List Char :=
  if h : n < 10 then [digitChar n]
  else natDigits (n / 10) ++ [digitChar (n % 10)]
termination_by n
decreasing_by
  exact Nat.div_lt_self (by omega) (by omega)

/-- Shortest-exact decimal rendering of a non-negative rational whose
denominator divides a power of ten, with at least one fractional digit: the
form in which pandas writes the ledger's float values to the CSV export. -/
def renderQ (q : ℚ) : List Char :=
  let k := decExp q.den
  let n := q.num.toNat * (10 ^ k / q.den)
  if k = 0 then natDigits n ++ ['.', '0']
  else
    natDigits (n / 10 ^ k) ++
      '.' :: (List.replicate (k - (natDigits (n % 10 ^ k)).length) '0' ++
        natDigits (n % 10 ^ k))

/-- The header cells of the export, in the column order fixed by the
DataFrame construction of app.py lines 57-60. -/
def csvHeader : List (List Char) :=
  ["日付".data, "レシピ名".data, "カロリー(kcal)".data,
   "タンパク質(g)".data, "脂質(g)".data, "炭水化物(g)".data]

/-- The cells of one exported ledger row, in the fixed column order. -/
def rowCells (r : NutritionRow) : List (List Char) :=
  [r.date, r.recipeName, renderQ r.calories, renderQ r.protein,
   renderQ r.fat, renderQ r.carbs]

/-- `convert_df_to_csv` of app.py lines 216-218:
`df.to_csv(index=False)` on the nutrition ledger (header line first, then one
line per row; the `.encode('utf-8')` step is the identity on the modelled
character sequence). -/
def convert_df_to_csv (ledger : List NutritionRow) : List Char :=
  renderTableCSV (csvHeader :: ledger.map rowCells)

/-- Read one quoted CSV field (after its opening quote): a doubled quote is
an escaped quote character, a single quote closes the field; returns the
field and the remaining input. -/
def parseQuoted (l : List Char) : List Char × List Char :=
  match l with
  | [] => ([], [])
  | c :: r =>
      if c = '"' then
        if r.headD ' ' = '"' then
          let p := parseQuoted r.tail
          ('"' :: p.1, p.2)
        else ([], r)
      else
        let p := parseQuoted r
        (c :: p.1, p.2)
termination_by l.length
decreasing_by
  · simp only [List.length_cons, List.length_tail]
    omega
  · simp

theorem parseQuoted_nonquote {c : Char} (hc : c ≠ '"') (r : List Char) :
    parseQuoted (c :: r) = (c :: (parseQuoted r).1, (parseQuoted r).2) := by
  rw [parseQuoted.eq_def]
  simp [hc]

theorem parseQuoted_escaped (r : List Char) :
    parseQuoted ('"' :: '"' :: r) = ('"' :: (parseQuoted r).1, (parseQuoted r).2) := by
  rw [parseQuoted.eq_def]
  simp

theorem parseQuoted_close {d : Char} (hd : d ≠ '"') (r : List Char) :
    parseQuoted ('"' :: d :: r) = ([], d :: r) := by
  rw [parseQuoted.eq_def]
  simp [hd]

/-- Read one CSV field; returns the field and the remaining input.  A field
starting with a quote is read as a quoted field, any other (also an empty
rest) as an unquoted field ending at the next comma or newline. -/
def parseFieldCSV (l : List Char) : List Char × List Char :=
  if l.headD ' ' = '"' then parseQuoted l.tail
  else (l.takeWhile (fun c => c ≠ ',' && c ≠ '\n'),
        l.dropWhile (fun c => c ≠ ',' && c ≠ '\n'))

theorem parseQuoted_le_aux :
    ∀ (n : Nat) (l : List Char), l.length ≤ n → (parseQuoted l).2.length ≤ l.length := by
  intro n
  induction n with
  | zero =>
    intro l hl
    have hnil : l = [] := List.length_eq_zero.mp (Nat.le_zero.mp hl)
    subst hnil
    simp [parseQuoted]
  | succ n ih =>
    intro l hl
    match l with
    | [] => simp [parseQuoted]
    | c :: r =>
      by_cases hc : c = '"'
      · subst hc
        match r with
        | [] => simp [parseQuoted]
        | d :: r2 =>
          by_cases hd : d = '"'
          · subst hd
            rw [parseQuoted_escaped r2]
            show (parseQuoted r2).2.length ≤ _
            simp only [List.length_cons] at hl ⊢
            have := ih r2 (by omega)
            omega
          · rw [parseQuoted_close hd r2]
            simp
      · rw [parseQuoted_nonquote hc r]
        show (parseQuoted r).2.length ≤ _
        simp only [List.length_cons] at hl ⊢
        have := ih r (by omega)
        omega

theorem parseQuoted_length_le (l : List Char) : (parseQuoted l).2.length ≤ l.length :=
  parseQuoted_le_aux l.length l (Nat.le_refl _)

theorem length_dropWhile_le_len (p : Char → Bool) (l : List Char) :
    (l.dropWhile p).length ≤ l.length := by
  induction l with
  | nil => simp
  | cons c cs ih =>
    by_cases h : p c
    · simp only [List.dropWhile_cons, h, if_true]
      exact ih.trans (Nat.le_succ _)
    · simp [List.dropWhile_cons, h]

theorem parseFieldCSV_length_le (l : List Char) :
    (parseFieldCSV l).2.length ≤ l.length := by
  simp only [parseFieldCSV]
  split
  · exact (parseQuoted_length_le l.tail).trans (by cases l <;> simp)
  · exact length_dropWhile_le_len _ l

/-- Read one CSV record: fields separated by commas, terminated by a newline
or the end of input; returns the cells and the remaining input. -/
def parseRecordCSV (l : List Char) : List (List Char) × List Char :=
  match h : parseFieldCSV l with
  | (f, ',' :: r) =>
      let q := parseRecordCSV r
      (f :: q.1, q.2)
  | (f, '\n' :: r) => ([f], r)
  | (f, rest) => ([f], rest)
termination_by l.length
decreasing_by
  have hle := parseFieldCSV_length_le l
  rw [h] at hle
  simp only [List.length_cons] at hle
  omega

theorem parseRecordCSV_comma {l f r : List Char} (h : parseFieldCSV l = (f, ',' :: r)) :
    parseRecordCSV l = (f :: (parseRecordCSV r).1, (parseRecordCSV r).2) := by
  rw [parseRecordCSV]
  split
  · rename_i f2 r2 h2
    rw [h] at h2
    injection h2 with h3 h4
    injection h4 with h5 h6
    subst h3; subst h6; rfl
  · rename_i f2 r2 h2
    rw [h] at h2
    injection h2 with h3 h4
    injection h4 with h5 h6
    exact absurd h5 (by decide)
  · rename_i f2 rest2 g1 g2 h2
    rw [h] at h2
    injection h2 with h3 h4
    exact absurd h4.symm (fun hh => g1 r hh)

theorem parseRecordCSV_newline {l f r : List Char} (h : parseFieldCSV l = (f, '\n' :: r)) :
    parseRecordCSV l = ([f], r) := by
  rw [parseRecordCSV]
  split
  · rename_i f2 r2 h2
    rw [h] at h2
    injection h2 with h3 h4
    injection h4 with h5 h6
    exact absurd h5 (by decide)
  · rename_i f2 r2 h2
    rw [h] at h2
    injection h2 with h3 h4
    injection h4 with h5 h6
    subst h3; subst h6; rfl
  · rename_i f2 rest2 g1 g2 h2
    rw [h] at h2
    injection h2 with h3 h4
    exact absurd h4.symm (fun hh => g2 r hh)

theorem parseRecordCSV_other {l f rest : List Char} (h : parseFieldCSV l = (f, rest))
    (g1 : ∀ r, rest ≠ ',' :: r) (g2 : ∀ r, rest ≠ '\n' :: r) :
    parseRecordCSV l = ([f], rest) := by
  rw [parseRecordCSV]
  split
  · rename_i f2 r2 h2
    rw [h] at h2
    injection h2 with h3 h4
    exact absurd h4 (g1 r2)
  · rename_i f2 r2 h2
    rw [h] at h2
    injection h2 with h3 h4
    exact absurd h4 (g2 r2)
  · rename_i f2 rest2 g1b g2b h2
    rw [h] at h2
    injection h2 with h3 h4
    subst h3; subst h4
    rfl

theorem parseRecordCSV_le_aux :
    ∀ (n : Nat) (l : List Char), l.length ≤ n → (parseRecordCSV l).2.length ≤ l.length := by
  intro n
  induction n with
  | zero =>
    intro l hl
    have hnil : l = [] := List.length_eq_zero.mp (Nat.le_zero.mp hl)
    subst hnil
    have h : parseFieldCSV [] = ([], []) := by rfl
    rw [parseRecordCSV_other h (fun r => by simp) (fun r => by simp)]
  | succ n ih =>
    intro l hl
    rcases h : parseFieldCSV l with ⟨f, rest⟩
    have hrest : rest.length ≤ l.length := by
      have := parseFieldCSV_length_le l
      rw [h] at this
      exact this
    match rest with
    | ',' :: r =>
      rw [parseRecordCSV_comma h]
      simp only [List.length_cons] at hrest
      have hr : r.length ≤ n := by omega
      exact (ih r hr).trans (by omega)
    | '\n' :: r =>
      rw [parseRecordCSV_newline h]
      show r.length ≤ l.length
      simp only [List.length_cons] at hrest
      omega
    | [] =>
      rw [parseRecordCSV_other h (fun r => by simp) (fun r => by simp)]
      simpa using hrest
    | c :: r =>
      by_cases hc1 : c = ','
      · subst hc1
        rw [parseRecordCSV_comma h]
        simp only [List.length_cons] at hrest
        have hr : r.length ≤ n := by omega
        exact (ih r hr).trans (by omega)
      · by_cases hc2 : c = '\n'
        · subst hc2
          rw [parseRecordCSV_newline h]
          show r.length ≤ l.length
          simp only [List.length_cons] at hrest
          omega
        · rw [parseRecordCSV_other h
            (fun r2 hr2 => hc1 (List.head_eq_of_cons_eq hr2))
            (fun r2 hr2 => hc2 (List.head_eq_of_cons_eq hr2))]
          simpa using hrest

theorem parseRecordCSV_length_le (l : List Char) :
    (parseRecordCSV l).2.length ≤ l.length :=
  parseRecordCSV_le_aux l.length l (Nat.le_refl _)

theorem parseFieldCSV_cases (c : Char) (cs : List Char) :
    (parseFieldCSV (c :: cs)).2.length < (c :: cs).length ∨
    (∃ r, (parseFieldCSV (c :: cs)).2 = ',' :: r) ∨
    (∃ r, (parseFieldCSV (c :: cs)).2 = '\n' :: r) := by
  by_cases hc : c = '"'
  · subst hc
    left
    have h : parseFieldCSV ('"' :: cs) = parseQuoted cs := by
      simp [parseFieldCSV]
    rw [h]
    exact Nat.lt_succ_of_le (parseQuoted_length_le cs)
  · have h : parseFieldCSV (c :: cs) =
        ((c :: cs).takeWhile (fun x => x ≠ ',' && x ≠ '\n'),
         (c :: cs).dropWhile (fun x => x ≠ ',' && x ≠ '\n')) := by
      simp [parseFieldCSV, hc]
    rw [h]
    by_cases hp : (c ≠ ',' && c ≠ '\n') = true
    · left
      show ((c :: cs).dropWhile (fun x => x ≠ ',' && x ≠ '\n')).length < _
      simp only [List.dropWhile_cons, hp, if_true]
      exact Nat.lt_succ_of_le (length_dropWhile_le_len _ cs)
    · simp only [Bool.and_eq_true, decide_eq_true_eq, not_and_or] at hp
      rcases hp with hp | hp
      · right; left
        have hcc : c = ',' := by
          by_contra hcc
          exact hp (by simpa using hcc)
        subst hcc
        exact ⟨cs, by simp [List.dropWhile_cons]⟩
      · right; right
        have hcc : c = '\n' := by
          by_contra hcc
          exact hp (by simpa using hcc)
        subst hcc
        exact ⟨cs, by simp [List.dropWhile_cons]⟩

theorem parseRecordCSV_length_lt (l : List Char) (hl : l ≠ []) :
    (parseRecordCSV l).2.length < l.length := by
  match l, hl with
  | c :: cs, _ =>
    rcases hf : parseFieldCSV (c :: cs) with ⟨f, rest⟩
    have h2 := parseFieldCSV_length_le (c :: cs)
    rw [hf] at h2
    match rest, hf, h2 with
    | ',' :: r, hf, h2 =>
      rw [parseRecordCSV_comma hf]
      show (parseRecordCSV r).2.length < _
      have h1 := parseRecordCSV_length_le r
      simp only [List.length_cons] at h2 ⊢
      omega
    | '\n' :: r, hf, h2 =>
      rw [parseRecordCSV_newline hf]
      show r.length < _
      simp only [List.length_cons] at h2 ⊢
      omega
    | [], hf, h2 =>
      rw [parseRecordCSV_other hf (fun r => by simp) (fun r => by simp)]
      show ([] : List Char).length < _
      simp
    | c2 :: r, hf, h2 =>
      by_cases hc1 : c2 = ','
      · subst hc1
        rw [parseRecordCSV_comma hf]
        show (parseRecordCSV r).2.length < _
        have h1 := parseRecordCSV_length_le r
        simp only [List.length_cons] at h2 ⊢
        omega
      · by_cases hc2 : c2 = '\n'
        · subst hc2
          rw [parseRecordCSV_newline hf]
          show r.length < _
          simp only [List.length_cons] at h2 ⊢
          omega
        · rw [parseRecordCSV_other hf
            (fun r2 hr2 => hc1 (List.head_eq_of_cons_eq hr2))
            (fun r2 hr2 => hc2 (List.head_eq_of_cons_eq hr2))]
          show (c2 :: r).length < _
          rcases parseFieldCSV_cases c cs with hlt | ⟨r2, hr⟩ | ⟨r2, hr⟩
          · rw [hf] at hlt
            simpa using hlt
          · rw [hf] at hr
            simp only at hr
            exact absurd (List.head_eq_of_cons_eq hr) hc1
          · rw [hf] at hr
            simp only at hr
            exact absurd (List.head_eq_of_cons_eq hr) hc2

/-- Read a whole CSV text as a list of records. -/
def parseTableCSV (l : List Char) : List (List (List Char)) :=
  match l with
  | [] => []
  | c :: cs =>
      (parseRecordCSV (c :: cs)).1 :: parseTableCSV (parseRecordCSV (c :: cs)).2
termination_by l.length
decreasing_by
  exact parseRecordCSV_length_lt _ (by simp)

theorem parseTableCSV_cons (l : List Char) (hl : l ≠ []) :
    parseTableCSV l = (parseRecordCSV l).1 :: parseTableCSV (parseRecordCSV l).2 := by
  match l, hl with
  | c :: cs, _ => simp only [parseTableCSV]

theorem takeWhileC_append {p : Char → Bool} {a : List Char} (b : List Char)
    (ha : ∀ c ∈ a, p c = true) : (a ++ b).takeWhile p = a ++ b.takeWhile p := by
  induction a with
  | nil => simp
  | cons c cs ih =>
    have hc : p c = true := ha c (by simp)
    simp only [List.cons_append, List.takeWhile_cons, hc, if_true]
    rw [ih (fun x hx => ha x (by simp [hx]))]

theorem dropWhileC_append {p : Char → Bool} {a : List Char} (b : List Char)
    (ha : ∀ c ∈ a, p c = true) : (a ++ b).dropWhile p = b.dropWhile p := by
  induction a with
  | nil => simp
  | cons c cs ih =>
    have hc : p c = true := ha c (by simp)
    simp only [List.cons_append, List.dropWhile_cons, hc, if_true]
    exact ih (fun x hx => ha x (by simp [hx]))

theorem escapeQ_nonquote {c : Char} (hc : c ≠ '"') (g : List Char) :
    escapeQ (c :: g) = c :: escapeQ g := by
  rw [escapeQ.eq_def]
  split
  · rename_i h2
    exact absurd h2 (by simp)
  · rename_i r h2
    exact absurd (List.head_eq_of_cons_eq h2) hc
  · rename_i c2 r hx h2
    injection h2 with h3 h4
    subst h3; subst h4
    rfl

theorem parseQuoted_escape_round (f : List Char) {d : Char} (hd : d ≠ '"')
    (rest : List Char) :
    parseQuoted (escapeQ f ++ '"' :: d :: rest) = (f, d :: rest) := by
  induction f with
  | nil =>
    simpa [escapeQ] using parseQuoted_close hd rest
  | cons c g ih =>
    by_cases hc : c = '"'
    · subst hc
      have he : escapeQ ('"' :: g) = '"' :: '"' :: escapeQ g := by
        rw [escapeQ]
      rw [he]
      simp only [List.cons_append]
      rw [parseQuoted_escaped (escapeQ g ++ '"' :: d :: rest), ih]
    · rw [escapeQ_nonquote hc g]
      simp only [List.cons_append]
      rw [parseQuoted_nonquote hc (escapeQ g ++ '"' :: d :: rest), ih]

theorem parseFieldCSV_render (f : List Char) {d : Char} (hd : d = ',' ∨ d = '\n')
    (rest : List Char) :
    parseFieldCSV (renderFieldCSV f ++ d :: rest) = (f, d :: rest) := by
  have hdq : d ≠ '"' := by rcases hd with h | h <;> subst h <;> decide
  by_cases hq : needsQuote f = true
  · have hr : renderFieldCSV f = '"' :: (escapeQ f ++ ['"']) := by
      simp [renderFieldCSV, hq]
    rw [hr]
    have hassoc : ('"' :: (escapeQ f ++ ['"'])) ++ d :: rest
        = '"' :: (escapeQ f ++ '"' :: d :: rest) := by
      simp
    rw [hassoc]
    have hpf : parseFieldCSV ('"' :: (escapeQ f ++ '"' :: d :: rest))
        = parseQuoted (escapeQ f ++ '"' :: d :: rest) := by
      simp [parseFieldCSV]
    rw [hpf]
    exact parseQuoted_escape_round f hdq rest
  · have hr : renderFieldCSV f = f := by simp [renderFieldCSV, hq]
    rw [hr]
    have hany : ∀ c ∈ f, ¬(c = ',' ∨ c = '"' ∨ c = '\n' ∨ c = '\r') := by
      intro c hcf
      intro hor
      apply hq
      simp only [needsQuote, List.any_eq_true]
      refine ⟨c, hcf, ?_⟩
      rcases hor with h | h | h | h <;> subst h <;> decide
    have hp : ∀ c ∈ f, (fun c => c ≠ ',' && c ≠ '\n') c = true := by
      intro c hcf
      have := hany c hcf
      simp only [Bool.and_eq_true, decide_eq_true_eq]
      push_neg at this
      exact ⟨this.1, this.2.2.1⟩
    have hpd : (fun c => c ≠ ',' && c ≠ '\n') d = false := by
      rcases hd with h | h <;> subst h <;> decide
    cases f with
    | nil =>
      rcases hd with h | h <;> subst h <;> simp [parseFieldCSV]
    | cons c f2 =>
      have hc : c ≠ '"' := by
        intro hcq
        exact hany c (by simp) (by simp [hcq])
      have hbranch : parseFieldCSV ((c :: f2) ++ d :: rest)
          = (((c :: f2) ++ d :: rest).takeWhile (fun c => c ≠ ',' && c ≠ '\n'),
             ((c :: f2) ++ d :: rest).dropWhile (fun c => c ≠ ',' && c ≠ '\n')) := by
        simp [parseFieldCSV, hc]
      rw [hbranch, takeWhileC_append (d :: rest) hp, dropWhileC_append (d :: rest) hp]
      have ht : List.takeWhile (fun c => c ≠ ',' && c ≠ '\n') (d :: rest) = [] := by
        rcases hd with h | h <;> subst h <;> simp
      have hdrop : List.dropWhile (fun c => c ≠ ',' && c ≠ '\n') (d :: rest) = d :: rest := by
        rcases hd with h | h <;> subst h <;> simp
      rw [ht, hdrop]
      simp

theorem parseRecordCSV_render (cells : List (List Char)) (hne : cells ≠ [])
    (rest : List Char) :
    parseRecordCSV (renderRecordCSV cells ++ rest) = (cells, rest) := by
  induction cells with
  | nil => exact absurd rfl hne
  | cons f cs ih =>
    cases cs with
    | nil =>
      have h1 : renderRecordCSV [f] ++ rest = renderFieldCSV f ++ '\n' :: rest := by
        simp [renderRecordCSV, joinSep]
      rw [h1]
      exact parseRecordCSV_newline (parseFieldCSV_render f (Or.inr rfl) rest)
    | cons g cs2 =>
      have h1 : renderRecordCSV (f :: g :: cs2) ++ rest
          = renderFieldCSV f ++ ',' :: (renderRecordCSV (g :: cs2) ++ rest) := by
        simp [renderRecordCSV, joinSep]
      rw [h1]
      rw [parseRecordCSV_comma
        (parseFieldCSV_render f (Or.inl rfl) (renderRecordCSV (g :: cs2) ++ rest))]
      rw [ih (by simp)]

theorem parseTableCSV_render (t : List (List (List Char)))
    (ht : ∀ row ∈ t, row ≠ []) :
    parseTableCSV (renderTableCSV t) = t := by
  induction t with
  | nil =>
    have h0 : renderTableCSV [] = [] := rfl
    rw [h0, parseTableCSV]
  | cons r rs ih =>
    have hr : renderTableCSV (r :: rs) = renderRecordCSV r ++ renderTableCSV rs := by
      simp [renderTableCSV]
    have hne : renderRecordCSV r ++ renderTableCSV rs ≠ [] := by
      simp [renderRecordCSV]
    rw [hr, parseTableCSV_cons _ hne,
      parseRecordCSV_render r (ht r (by simp)) (renderTableCSV rs)]
    show r :: parseTableCSV (renderTableCSV rs) = r :: rs
    rw [ih (fun row hrow => ht row (by simp [hrow]))]

theorem digitChar_isDigit {n : Nat} (h : n < 10) : isDigitC (digitChar n) = true := by
  interval_cases n <;> decide

theorem digitVal_digitChar {n : Nat} (h : n < 10) : digitVal (digitChar n) = n := by
  interval_cases n <;> decide

theorem digitsVal_append_one (a : List Char) (c : Char) :
    digitsVal (a ++ [c]) = 10 * digitsVal a + digitVal c := by
  simp [digitsVal, List.foldl_append]

theorem natDigits_val (n : Nat) : digitsVal (natDigits n) = n := by
  induction n using Nat.strong_induction_on with
  | _ n ih =>
    by_cases h : n < 10
    · rw [natDigits, dif_pos h]
      simp [digitsVal, digitVal_digitChar h]
    · rw [natDigits, dif_neg h]
      rw [digitsVal_append_one]
      have hdiv : n / 10 < n := Nat.div_lt_self (by omega) (by omega)
      rw [ih (n / 10) hdiv, digitVal_digitChar (Nat.mod_lt n (by omega))]
      omega

theorem natDigits_all_digits (n : Nat) : ∀ c ∈ natDigits n, isDigitC c = true := by
  induction n using Nat.strong_induction_on with
  | _ n ih =>
    by_cases h : n < 10
    · rw [natDigits, dif_pos h]
      simpa using digitChar_isDigit h
    · rw [natDigits, dif_neg h]
      intro c hc
      rcases List.mem_append.mp hc with hc | hc
      · exact ih (n / 10) (Nat.div_lt_self (by omega) (by omega)) c hc
      · simp only [List.mem_singleton] at hc
        subst hc
        exact digitChar_isDigit (Nat.mod_lt n (by omega))

theorem natDigits_ne_nil (n : Nat) : natDigits n ≠ [] := by
  by_cases h : n < 10
  · rw [natDigits, dif_pos h]
    simp
  · rw [natDigits, dif_neg h]
    simp

theorem natDigits_length_le :
    ∀ (n k : Nat), 1 ≤ k → n < 10 ^ k → (natDigits n).length ≤ k := by
  intro n
  induction n using Nat.strong_induction_on with
  | _ n ih =>
    intro k hk hlt
    by_cases h : n < 10
    · rw [natDigits, dif_pos h]
      simpa using hk
    · rw [natDigits, dif_neg h]
      have hk2 : 2 ≤ k := by
        rcases Nat.lt_or_ge k 2 with hklt | hkge
        · interval_cases k
          · omega
        · exact hkge
      have hdivlt : n / 10 < 10 ^ (k - 1) := by
        rw [Nat.div_lt_iff_lt_mul (by omega)]
        have : 10 ^ (k - 1) * 10 = 10 ^ k := by
          rw [← pow_succ]
          congr 1
          omega
        omega
      have := ih (n / 10) (Nat.div_lt_self (by omega) (by omega)) (k - 1) (by omega) hdivlt
      simp only [List.length_append, List.length_cons, List.length_nil]
      omega

theorem digitsVal_replicate_zero (m : Nat) (s : List Char) :
    digitsVal (List.replicate m '0' ++ s) = digitsVal s := by
  induction m with
  | zero => simp
  | succ m ih =>
    rw [List.replicate_succ]
    simpa [digitsVal, digitVal] using ih

theorem takeWhile_all_eq {p : Char → Bool} {l : List Char}
    (h : ∀ c ∈ l, p c = true) : l.takeWhile p = l := by
  have := @takeWhileC_append p l [] h
  simpa using this

theorem dropWhile_all_eq {p : Char → Bool} {l : List Char}
    (h : ∀ c ∈ l, p c = true) : l.dropWhile p = [] := by
  have := @dropWhileC_append p l [] h
  simpa using this

theorem parseDecimal_digits {ds : List Char} (hds : ∀ c ∈ ds, isDigitC c = true) :
    parseDecimal ds = (digitsVal ds : ℚ) := by
  simp [parseDecimal, takeWhile_all_eq hds, dropWhile_all_eq hds]

theorem parseDecimal_point {ds fs : List Char}
    (hds : ∀ c ∈ ds, isDigitC c = true) (hfs : ∀ c ∈ fs, isDigitC c = true) :
    parseDecimal (ds ++ '.' :: fs) =
      (digitsVal ds : ℚ) + (digitsVal fs : ℚ) / (10 : ℚ) ^ fs.length := by
  have htake : (ds ++ '.' :: fs).takeWhile isDigitC = ds := by
    rw [takeWhileC_append ('.' :: fs) hds]
    simp [List.takeWhile_cons, show isDigitC '.' = false from by decide]
  have hdrop : (ds ++ '.' :: fs).dropWhile isDigitC = '.' :: fs := by
    rw [dropWhileC_append ('.' :: fs) hds]
    simp [List.dropWhile_cons, show isDigitC '.' = false from by decide]
  simp [parseDecimal, htake, hdrop, takeWhile_all_eq hfs]

theorem decExp_dvd {d : Nat} (hk : ∃ k, k < 100 ∧ d ∣ 10 ^ k) : d ∣ 10 ^ decExp d := by
  obtain ⟨k, hk100, hdvd⟩ := hk
  unfold decExp
  cases hfind : (List.range 100).find? (fun k => decide (d ∣ 10 ^ k)) with
  | none =>
    exfalso
    have hnone := List.find?_eq_none.mp hfind k (List.mem_range.mpr hk100)
    simp only [decide_eq_true_eq] at hnone
    exact hnone hdvd
  | some k2 =>
    have hsome := List.find?_some hfind
    simp only [decide_eq_true_eq] at hsome
    simpa using hsome

theorem parseDecimal_digits_frac (n k : Nat) (hk : k ≠ 0) :
    parseDecimal (natDigits (n / 10 ^ k) ++
      '.' :: (List.replicate (k - (natDigits (n % 10 ^ k)).length) '0' ++
        natDigits (n % 10 ^ k))) = (n : ℚ) / (10 : ℚ) ^ k := by
  have hfsd : ∀ c ∈ List.replicate (k - (natDigits (n % 10 ^ k)).length) '0' ++
      natDigits (n % 10 ^ k), isDigitC c = true := by
    intro c hc
    rcases List.mem_append.mp hc with hc | hc
    · rw [List.eq_of_mem_replicate hc]
      decide
    · exact natDigits_all_digits _ c hc
  rw [parseDecimal_point (natDigits_all_digits _) hfsd]
  rw [natDigits_val, digitsVal_replicate_zero, natDigits_val]
  have hlt : n % 10 ^ k < 10 ^ k := Nat.mod_lt n (by positivity)
  have hlen : (natDigits (n % 10 ^ k)).length ≤ k :=
    natDigits_length_le (n % 10 ^ k) k (by omega) hlt
  have hlen2 : (List.replicate (k - (natDigits (n % 10 ^ k)).length) '0' ++
      natDigits (n % 10 ^ k)).length = k := by
    simp only [List.length_append, List.length_replicate]
    omega
  rw [hlen2]
  have h10 : ((10 : ℚ)) ^ k ≠ 0 := by positivity
  have hsplit : (n : ℚ) = ((n / 10 ^ k : Nat) : ℚ) * (10 : ℚ) ^ k + ((n % 10 ^ k : Nat) : ℚ) := by
    calc (n : ℚ) = ((10 ^ k * (n / 10 ^ k) + n % 10 ^ k : Nat) : ℚ) := by
          rw [Nat.div_add_mod]
    _ = ((n / 10 ^ k : Nat) : ℚ) * (10 : ℚ) ^ k + ((n % 10 ^ k : Nat) : ℚ) := by
          push_cast
          ring
  rw [hsplit, add_div, mul_div_cancel_right₀ _ h10]

theorem parseDecimal_renderQ (q : ℚ) (h0 : 0 ≤ q) (hk : ∃ k, k < 100 ∧ q.den ∣ 10 ^ k) :
    parseDecimal (renderQ q) = q := by
  have hdvd : q.den ∣ 10 ^ decExp q.den := decExp_dvd hk
  have hm : 10 ^ decExp q.den / q.den * q.den = 10 ^ decExp q.den := Nat.div_mul_cancel hdvd
  have hm0 : 10 ^ decExp q.den / q.den ≠ 0 := by
    intro h
    rw [h, zero_mul] at hm
    exact (pow_ne_zero (decExp q.den) (by norm_num : (10 : Nat) ≠ 0)) hm.symm
  have hnum : 0 ≤ q.num := Rat.num_nonneg.mpr h0
  have hq : ((q.num.toNat * (10 ^ decExp q.den / q.den) : Nat) : ℚ) /
      (10 : ℚ) ^ decExp q.den = q := by
    have hm0Q : ((10 ^ decExp q.den / q.den : Nat) : ℚ) ≠ 0 := Nat.cast_ne_zero.mpr hm0
    have htn : ((q.num.toNat : Nat) : ℚ) = ((q.num : ℤ) : ℚ) := by
      have h2 := Int.toNat_of_nonneg hnum
      exact_mod_cast congrArg (fun z : ℤ => (z : ℚ)) h2
    have h10 : ((10 : ℚ)) ^ decExp q.den = ((10 ^ decExp q.den : Nat) : ℚ) := by
      push_cast
      ring
    set m := 10 ^ decExp q.den / q.den with hmdef
    rw [h10, ← hm]
    push_cast
    rw [htn]
    rw [mul_comm ((q.num : ℤ) : ℚ) ((m : Nat) : ℚ)]
    rw [mul_div_mul_left _ _ hm0Q]
    exact Rat.num_div_den q
  by_cases hk0 : decExp q.den = 0
  · have hrq : renderQ q =
        natDigits (q.num.toNat * (10 ^ decExp q.den / q.den)) ++ '.' :: ['0'] := by
      simp only [renderQ]
      rw [if_pos hk0]
    have h0d : ∀ c ∈ ['0'], isDigitC c = true := by
      intro c hc
      simp only [List.mem_singleton] at hc
      subst hc
      decide
    rw [hrq, parseDecimal_point (natDigits_all_digits _) h0d]
    rw [natDigits_val]
    have hzn : digitsVal ['0'] = 0 := by decide
    rw [hzn]
    rw [hk0] at hq ⊢
    simp only [pow_zero, div_one] at hq
    simpa using hq
  · have hrq : renderQ q =
        natDigits (q.num.toNat * (10 ^ decExp q.den / q.den) / 10 ^ decExp q.den) ++
          '.' :: (List.replicate (decExp q.den -
              (natDigits (q.num.toNat * (10 ^ decExp q.den / q.den) % 10 ^ decExp q.den)).length) '0' ++
            natDigits (q.num.toNat * (10 ^ decExp q.den / q.den) % 10 ^ decExp q.den)) := by
      simp only [renderQ]
      rw [if_neg hk0]
    rw [hrq, parseDecimal_digits_frac _ _ hk0]
    exact hq

/-- A list of whitespace characters (an instance of `\s*`). -/
def WsAll (l : List Char) : Prop := ∀ c ∈ l, isWsC c = true

/-- A decimal number literal as captured by group 1 of the patterns:
one or more digits, optionally followed by a point and one or more digits. -/
def NumLit (cap : List Char) : Prop :=
  ∃ ds frac, cap = ds ++ frac ∧ ds ≠ [] ∧ (∀ c ∈ ds, isDigitC c = true) ∧
    (frac = [] ∨ ∃ fs, frac = '.' :: fs ∧ fs ≠ [] ∧ ∀ c ∈ fs, isDigitC c = true)

/-- Declarative reading of the pattern
`<label>\s*[：:]\s*(\d+(\.\d+)?)\s*<unit>` matching at the start of `l` and
capturing `cap`: the spec-side description of one labeled quantity. -/
def PatOccur (label unit l cap : List Char) : Prop :=
  ∃ w1 c w2 w3 rest,
    l = label ++ w1 ++ c :: (w2 ++ cap ++ w3 ++ unit ++ rest) ∧
    WsAll w1 ∧ isColonC c = true ∧ WsAll w2 ∧ NumLit cap ∧ WsAll w3

/-- The pattern occurs at position `i` of `s`, capturing `cap`. -/
def PatOccurAt (label unit s : List Char) (i : Nat) (cap : List Char) : Prop :=
  PatOccur label unit (s.drop i) cap

/-- The unit token starts with a character that is not whitespace, not a
digit and not a point (true of both `kcal` and `g`); this keeps the greedy
matcher of `searchPat` from interacting with the unit token. -/
def unitOkB (unit : List Char) : Bool :=
  match unit with
  | [] => false
  | u :: _ => !isWsC u && !isDigitC u && u ≠ '.'

theorem digit_not_ws {c : Char} (h : isDigitC c = true) : isWsC c = false := by
  by_contra hw
  rw [Bool.not_eq_false] at hw
  simp only [isWsC, List.any_eq_true, beq_iff_eq] at hw
  obtain ⟨n, hn, hcn⟩ := hw
  rw [isDigitC, hcn] at h
  have hall : ∀ n ∈ wsCodes,
      (digitStarts.any (fun s => s ≤ n && n ≤ s + 9)) = false := by decide
  rw [hall n hn] at h
  exact absurd h (by simp)

theorem digit_not_dot {c : Char} (h : isDigitC c = true) : c ≠ '.' := by
  intro he
  subst he
  exact absurd h (by decide)

theorem colon_not_ws {c : Char} (h : isColonC c = true) : isWsC c = false := by
  simp only [isColonC, Bool.or_eq_true, decide_eq_true_eq] at h
  rcases h with h | h <;> subst h <;> decide

theorem stripPre_eq_some {p : List Char} :
    ∀ {l r : List Char}, stripPre p l = some r ↔ l = p ++ r := by
  induction p with
  | nil =>
    intro l r
    simp [stripPre]
  | cons a ps ih =>
    intro l r
    cases l with
    | nil => simp [stripPre]
    | cons b ls =>
      by_cases hab : a = b
      · subst hab
        simp [stripPre, ih]
      · simp only [stripPre, if_neg hab]
        constructor
        · intro h
          exact absurd h (by simp)
        · intro h
          injection h with h1 h2
          exact absurd h1.symm hab

theorem stripPre_append (p r : List Char) : stripPre p (p ++ r) = some r :=
  stripPre_eq_some.mpr rfl

theorem dropWs_ws_append {w : List Char} (hw : WsAll w) (l : List Char) :
    dropWs (w ++ l) = dropWs l := by
  exact dropWhileC_append l (fun c hc => hw c hc)

theorem dropWs_cons_not {c : Char} (hc : isWsC c = false) (l : List Char) :
    dropWs (c :: l) = c :: l := by
  simp [dropWs, List.dropWhile_cons, hc]

theorem takeDigits_append {a : List Char} (ha : ∀ c ∈ a, isDigitC c = true)
    (b : List Char) : takeDigits (a ++ b) = a ++ takeDigits b :=
  takeWhileC_append b ha

theorem dropDigits_append {a : List Char} (ha : ∀ c ∈ a, isDigitC c = true)
    (b : List Char) : dropDigits (a ++ b) = dropDigits b :=
  dropWhileC_append b ha

theorem takeDigits_cons_not {c : Char} (hc : isDigitC c = false) (l : List Char) :
    takeDigits (c :: l) = [] := by
  simp [takeDigits, List.takeWhile_cons, hc]

theorem dropDigits_cons_not {c : Char} (hc : isDigitC c = false) (l : List Char) :
    dropDigits (c :: l) = c :: l := by
  simp [dropDigits, List.dropWhile_cons, hc]

theorem takeDigits_all (l : List Char) : ∀ c ∈ takeDigits l, isDigitC c = true := by
  intro c hc
  exact List.mem_takeWhile_imp hc

theorem takeDigits_append_dropDigits (l : List Char) :
    takeDigits l ++ dropDigits l = l :=
  @List.takeWhile_append_dropWhile Char isDigitC l

theorem takeWs_all (l : List Char) : ∀ c ∈ l.takeWhile isWsC, isWsC c = true := by
  intro c hc
  exact List.mem_takeWhile_imp hc

theorem takeWs_append_dropWs (l : List Char) :
    l.takeWhile isWsC ++ dropWs l = l :=
  @List.takeWhile_append_dropWhile Char isWsC l

theorem ws_not_digit {c : Char} (h : isWsC c = true) : isDigitC c = false := by
  by_contra hd
  rw [Bool.not_eq_false] at hd
  rw [digit_not_ws hd] at h
  exact absurd h (by simp)

theorem ws_not_dot {c : Char} (h : isWsC c = true) : c ≠ '.' := by
  intro he
  subst he
  exact absurd h (by decide)

theorem matchFrac_some {r fr} (h : matchFrac r = some fr) :
    ∃ t, r = '.' :: t ∧ takeDigits t ≠ [] ∧ fr = ('.' :: takeDigits t, dropDigits t) := by
  match r with
  | [] => exact absurd h (by simp [matchFrac])
  | c :: t =>
    by_cases hc : c = '.'
    · subst hc
      refine ⟨t, rfl, ?_, ?_⟩
      · intro hnil
        rw [matchFrac, if_pos hnil] at h
        exact absurd h (by simp)
      · by_cases hnil : takeDigits t = []
        · rw [matchFrac, if_pos hnil] at h
          exact absurd h (by simp)
        · rw [matchFrac, if_neg hnil] at h
          injection h with h2
          exact h2.symm
    · exfalso
      rw [matchFrac.eq_def] at h
      split at h
      · rename_i r2 heq
        exact absurd (List.head_eq_of_cons_eq heq) hc
      · exact absurd h (by simp)

theorem matchFrac_some_intro (t : List Char) (ht : takeDigits t ≠ []) :
    matchFrac ('.' :: t) = some ('.' :: takeDigits t, dropDigits t) := by
  rw [matchFrac, if_neg ht]

theorem matchFrac_none_not_dot {l : List Char} (h : ∀ t, l ≠ '.' :: t) :
    matchFrac l = none := by
  match l with
  | [] => rfl
  | c :: t =>
    rw [matchFrac.eq_def]
    split
    · rename_i r2 heq
      exact absurd heq (h r2)
    · rfl

/-- Declarative reading of `(\d+(\.\d+)?)\s*<unit>` at the start of `l`. -/
def NumTailSpec (unit l cap : List Char) : Prop :=
  ∃ w3 rest, l = cap ++ w3 ++ unit ++ rest ∧ NumLit cap ∧ WsAll w3

theorem matchNumTail_sound {unit l cap : List Char} (hu : unitOkB unit = true)
    (h : matchNumTail unit l = some cap) : NumTailSpec unit l cap := by
  obtain ⟨u, us, hun⟩ : ∃ u us, unit = u :: us := by
    cases unit with
    | nil => exact absurd hu (by simp [unitOkB])
    | cons u us => exact ⟨u, us, rfl⟩
  have hu3 : u ≠ '.' := by
    subst hun
    simp only [unitOkB, Bool.and_eq_true, Bool.not_eq_true', decide_eq_true_eq] at hu
    exact hu.2
  by_cases hds : takeDigits l = []
  · rw [matchNumTail, if_pos hds] at h
    exact absurd h (by simp)
  · rw [matchNumTail, if_neg hds] at h
    simp only at h
    have hl : l = takeDigits l ++ dropDigits l := (takeDigits_append_dropDigits l).symm
    cases hm : matchFrac (dropDigits l) with
    | some fr =>
      rw [hm] at h
      simp only at h
      obtain ⟨t, hrt, htd, hfr⟩ := matchFrac_some hm
      have hfr1 : fr.1 = '.' :: takeDigits t := by rw [hfr]
      have hfr2 : fr.2 = dropDigits t := by rw [hfr]
      by_cases hs1 : (stripPre unit (dropWs fr.2)).isSome = true
      · rw [if_pos hs1] at h
        injection h with h2
        obtain ⟨rest2, hrest2⟩ := Option.isSome_iff_exists.mp hs1
        have hsplit : dropWs fr.2 = unit ++ rest2 := stripPre_eq_some.mp hrest2
        have hdd : dropDigits t = (dropDigits t).takeWhile isWsC ++ (unit ++ rest2) := by
          conv_lhs => rw [← takeWs_append_dropWs (dropDigits t)]
          rw [← hfr2, hsplit]
        refine ⟨(dropDigits t).takeWhile isWsC, rest2, ?_, ?_, takeWs_all _⟩
        · rw [← h2, hfr1]
          calc l = takeDigits l ++ dropDigits l := hl
            _ = takeDigits l ++ '.' :: t := by rw [hrt]
            _ = takeDigits l ++ '.' :: (takeDigits t ++ dropDigits t) := by
                  conv_rhs => rw [takeDigits_append_dropDigits t]
            _ = takeDigits l ++ '.' :: (takeDigits t ++
                  ((dropDigits t).takeWhile isWsC ++ (unit ++ rest2))) := by
                  conv_lhs => rw [hdd]
            _ = takeDigits l ++ '.' :: takeDigits t ++
                  (dropDigits t).takeWhile isWsC ++ unit ++ rest2 := by
                  simp [List.append_assoc]
        · rw [← h2, hfr1]
          exact ⟨takeDigits l, '.' :: takeDigits t, rfl, hds, takeDigits_all l,
            Or.inr ⟨takeDigits t, rfl, htd, takeDigits_all t⟩⟩
      · rw [if_neg hs1] at h
        exfalso
        have hdw : dropWs (dropDigits l) = dropDigits l := by
          rw [hrt]
          exact dropWs_cons_not (by decide) t
        by_cases hs2 : (stripPre unit (dropWs (dropDigits l))).isSome = true
        · obtain ⟨rest2, hrest2⟩ := Option.isSome_iff_exists.mp hs2
          have hsp := stripPre_eq_some.mp hrest2
          rw [hdw, hrt, hun] at hsp
          have hh : '.' :: t = u :: (us ++ rest2) := by simpa using hsp
          exact hu3 ((List.head_eq_of_cons_eq hh).symm)
        · rw [if_neg hs2] at h
          exact absurd h (by simp)
    | none =>
      rw [hm] at h
      simp only at h
      by_cases hs2 : (stripPre unit (dropWs (dropDigits l))).isSome = true
      · rw [if_pos hs2] at h
        injection h with h2
        obtain ⟨rest2, hrest2⟩ := Option.isSome_iff_exists.mp hs2
        have hsplit : dropWs (dropDigits l) = unit ++ rest2 := stripPre_eq_some.mp hrest2
        have hdd : dropDigits l = (dropDigits l).takeWhile isWsC ++ (unit ++ rest2) := by
          conv_lhs => rw [← takeWs_append_dropWs (dropDigits l)]
          rw [hsplit]
        refine ⟨(dropDigits l).takeWhile isWsC, rest2, ?_, ?_, takeWs_all _⟩
        · rw [← h2]
          calc l = takeDigits l ++ dropDigits l := hl
            _ = takeDigits l ++ ((dropDigits l).takeWhile isWsC ++ (unit ++ rest2)) := by
                  conv_lhs => rw [hdd]
            _ = takeDigits l ++ (dropDigits l).takeWhile isWsC ++ unit ++ rest2 := by
                  simp [List.append_assoc]
        · rw [← h2]
          exact ⟨takeDigits l, [], by simp, hds, takeDigits_all l, Or.inl rfl⟩
      · rw [if_neg hs2] at h
        exact absurd h (by simp)

theorem matchNumTail_complete {unit l cap : List Char} (hu : unitOkB unit = true)
    (h : NumTailSpec unit l cap) : matchNumTail unit l = some cap := by
  obtain ⟨w3, rest, hl, hnum, hw3⟩ := h
  obtain ⟨ds, frac, hcap, hds, hdsd, hfrac⟩ := hnum
  obtain ⟨u, us, hun⟩ : ∃ u us, unit = u :: us := by
    cases unit with
    | nil => exact absurd hu (by simp [unitOkB])
    | cons u us => exact ⟨u, us, rfl⟩
  rw [hun] at hu
  simp only [unitOkB, Bool.and_eq_true, Bool.not_eq_true', decide_eq_true_eq] at hu
  obtain ⟨⟨hu1, hu2⟩, hu3⟩ := hu
  have hdWs : dropWs (w3 ++ (unit ++ rest)) = unit ++ rest := by
    rw [dropWs_ws_append hw3, hun]
    exact dropWs_cons_not hu1 _
  have htail : takeDigits (w3 ++ (unit ++ rest)) = [] := by
    cases w3 with
    | nil =>
      simp only [List.nil_append]
      rw [hun]
      exact takeDigits_cons_not hu2 _
    | cons c w3b =>
      simp only [List.cons_append]
      exact takeDigits_cons_not (ws_not_digit (hw3 c (by simp))) _
  have hdtail : dropDigits (w3 ++ (unit ++ rest)) = w3 ++ (unit ++ rest) := by
    cases w3 with
    | nil =>
      simp only [List.nil_append]
      rw [hun]
      exact dropDigits_cons_not hu2 _
    | cons c w3b =>
      simp only [List.cons_append]
      exact dropDigits_cons_not (ws_not_digit (hw3 c (by simp))) _
  have hheadtail : ∀ t2, w3 ++ (unit ++ rest) ≠ '.' :: t2 := by
    intro t2 ht2
    cases w3 with
    | nil =>
      rw [List.nil_append, hun] at ht2
      exact hu3 (List.head_eq_of_cons_eq ht2)
    | cons c w3b =>
      rw [List.cons_append] at ht2
      exact ws_not_dot (hw3 c (by simp)) (List.head_eq_of_cons_eq ht2)
  rcases hfrac with hfr0 | ⟨fs, hfr1, hfsne, hfsd⟩
  · subst hfr0
    have hl2 : l = ds ++ (w3 ++ (unit ++ rest)) := by
      rw [hl, hcap]
      simp [List.append_assoc]
    have htd : takeDigits l = ds := by
      rw [hl2, takeDigits_append hdsd, htail, List.append_nil]
    have hdd : dropDigits l = w3 ++ (unit ++ rest) := by
      rw [hl2, dropDigits_append hdsd, hdtail]
    have hmf : matchFrac (dropDigits l) = none := by
      rw [hdd]
      exact matchFrac_none_not_dot hheadtail
    rw [matchNumTail]
    rw [htd, if_neg hds]
    simp only [hmf]
    rw [hdd, hdWs]
    rw [show stripPre unit (unit ++ rest) = some rest from stripPre_append unit rest]
    simp [hcap]
  · subst hfr1
    have hfstail : takeDigits (fs ++ (w3 ++ (unit ++ rest))) = fs := by
      rw [takeDigits_append hfsd, htail, List.append_nil]
    have hfsdrop : dropDigits (fs ++ (w3 ++ (unit ++ rest))) = w3 ++ (unit ++ rest) := by
      rw [dropDigits_append hfsd, hdtail]
    have hl2 : l = ds ++ ('.' :: (fs ++ (w3 ++ (unit ++ rest)))) := by
      rw [hl, hcap]
      simp [List.append_assoc]
    have htd : takeDigits l = ds := by
      rw [hl2, takeDigits_append hdsd, takeDigits_cons_not (by decide) _,
        List.append_nil]
    have hdd : dropDigits l = '.' :: (fs ++ (w3 ++ (unit ++ rest))) := by
      rw [hl2, dropDigits_append hdsd, dropDigits_cons_not (by decide) _]
    have hmf : matchFrac (dropDigits l) =
        some ('.' :: fs, w3 ++ (unit ++ rest)) := by
      rw [hdd]
      rw [matchFrac_some_intro _ (by rw [hfstail]; exact hfsne)]
      rw [hfstail, hfsdrop]
    rw [matchNumTail]
    rw [htd, if_neg hds]
    simp only [hmf]
    simp only [hdWs]
    rw [show stripPre unit (unit ++ rest) = some rest from stripPre_append unit rest]
    simp [hcap]

theorem matchAtPos_sound {label unit l cap : List Char} (hu : unitOkB unit = true)
    (h : matchAtPos label unit l = some cap) : PatOccur label unit l cap := by
  cases hsp : stripPre label l with
  | none =>
    rw [matchAtPos, hsp] at h
    exact absurd h (by simp)
  | some r1 =>
    rw [matchAtPos, hsp] at h
    simp only at h
    cases hdw : dropWs r1 with
    | nil =>
      rw [hdw] at h
      exact absurd h (by simp)
    | cons c r2 =>
      rw [hdw] at h
      simp only at h
      by_cases hcol : isColonC c = true
      · rw [if_pos hcol] at h
        obtain ⟨w3, rest, heq, hnum, hw3⟩ := matchNumTail_sound hu h
        refine ⟨r1.takeWhile isWsC, c, r2.takeWhile isWsC, w3, rest, ?_,
          takeWs_all r1, hcol, takeWs_all r2, hnum, hw3⟩
        have hr1 : r1 = r1.takeWhile isWsC ++ (c :: r2) := by
          conv_lhs => rw [← takeWs_append_dropWs r1]
          rw [hdw]
        have hr2 : r2 = r2.takeWhile isWsC ++ (cap ++ w3 ++ unit ++ rest) := by
          conv_lhs => rw [← takeWs_append_dropWs r2]
          rw [heq]
        calc l = label ++ r1 := stripPre_eq_some.mp hsp
          _ = label ++ (r1.takeWhile isWsC ++
                (c :: (r2.takeWhile isWsC ++ (cap ++ w3 ++ unit ++ rest)))) := by
              conv_lhs => rw [hr1]
              conv_lhs => rw [hr2]
          _ = label ++ r1.takeWhile isWsC ++
                c :: (r2.takeWhile isWsC ++ cap ++ w3 ++ unit ++ rest) := by
              simp [List.append_assoc]
      · rw [if_neg hcol] at h
        exact absurd h (by simp)

theorem matchAtPos_complete {label unit l cap : List Char} (hu : unitOkB unit = true)
    (h : PatOccur label unit l cap) : matchAtPos label unit l = some cap := by
  obtain ⟨w1, c, w2, w3, rest, hl, hw1, hcol, hw2, hnum, hw3⟩ := h
  have hl2 : l = label ++ (w1 ++ c :: (w2 ++ (cap ++ (w3 ++ (unit ++ rest))))) := by
    rw [hl]
    simp [List.append_assoc]
  have hsp : stripPre label l = some (w1 ++ c :: (w2 ++ (cap ++ (w3 ++ (unit ++ rest))))) := by
    rw [hl2]
    exact stripPre_append _ _
  have hdw1 : dropWs (w1 ++ c :: (w2 ++ (cap ++ (w3 ++ (unit ++ rest)))))
      = c :: (w2 ++ (cap ++ (w3 ++ (unit ++ rest)))) := by
    rw [dropWs_ws_append hw1]
    exact dropWs_cons_not (colon_not_ws hcol) _
  obtain ⟨ds, frac, hcap, hds, hdsd, hfrac⟩ := hnum
  obtain ⟨d, ds2, hd⟩ : ∃ d ds2, ds = d :: ds2 := by
    cases ds with
    | nil => exact absurd rfl hds
    | cons d ds2 => exact ⟨d, ds2, rfl⟩
  have hdig : isDigitC d = true := hdsd d (by rw [hd]; simp)
  have hcapcons : cap ++ (w3 ++ (unit ++ rest))
      = d :: (ds2 ++ frac ++ (w3 ++ (unit ++ rest))) := by
    rw [hcap, hd]
    simp [List.append_assoc]
  have hdw2 : dropWs (w2 ++ (cap ++ (w3 ++ (unit ++ rest))))
      = cap ++ (w3 ++ (unit ++ rest)) := by
    rw [dropWs_ws_append hw2, hcapcons]
    rw [dropWs_cons_not (digit_not_ws hdig) _]
  rw [matchAtPos, hsp]
  simp only [hdw1]
  rw [if_pos hcol]
  rw [hdw2]
  apply matchNumTail_complete hu
  exact ⟨w3, rest, by simp [List.append_assoc], ⟨ds, frac, hcap, hds, hdsd, hfrac⟩, hw3⟩

theorem searchPat_some_iff {label unit : List Char} :
    ∀ {s cap : List Char},
      searchPat label unit s = some cap ↔
        ∃ n, matchAtPos label unit (s.drop n) = some cap ∧
          ∀ m, m < n → matchAtPos label unit (s.drop m) = none := by
  intro s
  induction s with
  | nil =>
    intro cap
    constructor
    · intro h
      exact ⟨0, by simpa [searchPat] using h, by omega⟩
    · rintro ⟨n, hn, hm⟩
      have hdn : (([] : List Char).drop n) = [] := by simp
      rw [hdn] at hn
      simpa [searchPat] using hn
  | cons c cs ih =>
    intro cap
    cases hma : matchAtPos label unit (c :: cs) with
    | some cap0 =>
      rw [searchPat, hma]
      constructor
      · intro h
        injection h with h2
        subst h2
        exact ⟨0, by simpa using hma, by omega⟩
      · rintro ⟨n, hn, hm⟩
        cases n with
        | zero =>
          rw [List.drop_zero] at hn
          rw [hma] at hn
          exact hn
        | succ n2 =>
          have h0 := hm 0 (by omega)
          rw [List.drop_zero, hma] at h0
          exact absurd h0 (by simp)
    | none =>
      rw [searchPat, hma]
      rw [ih]
      constructor
      · rintro ⟨n, hn, hm⟩
        refine ⟨n + 1, by simpa using hn, ?_⟩
        intro m hmlt
        cases m with
        | zero => simpa using hma
        | succ m2 => simpa using hm m2 (by omega)
      · rintro ⟨n, hn, hm⟩
        cases n with
        | zero =>
          rw [List.drop_zero, hma] at hn
          exact absurd hn (by simp)
        | succ n2 =>
          refine ⟨n2, by simpa using hn, ?_⟩
          intro m hmlt
          have := hm (m + 1) (by omega)
          simpa using this

theorem searchPat_none_iff {label unit : List Char} :
    ∀ {s : List Char},
      searchPat label unit s = none ↔
        ∀ n, matchAtPos label unit (s.drop n) = none := by
  intro s
  induction s with
  | nil =>
    constructor
    · intro h n
      simpa [searchPat] using h
    · intro h
      simpa [searchPat] using h 0
  | cons c cs ih =>
    cases hma : matchAtPos label unit (c :: cs) with
    | some cap0 =>
      rw [searchPat, hma]
      constructor
      · intro h
        exact absurd h (by simp)
      · intro h
        have := h 0
        rw [List.drop_zero, hma] at this
        exact absurd this (by simp)
    | none =>
      rw [searchPat, hma]
      rw [ih]
      constructor
      · intro h n
        cases n with
        | zero => simpa using hma
        | succ n2 => simpa using h n2
      · intro h n
        simpa using h (n + 1)

theorem fieldVal_first_occurrence {label unit s : List Char} {i : Nat}
    {cap : List Char} (hu : unitOkB unit = true)
    (hocc : PatOccurAt label unit s i cap)
    (hfirst : ∀ j c, PatOccurAt label unit s j c → i ≤ j) :
    fieldVal label unit s = parseDecimal cap := by
  have hmi : matchAtPos label unit (s.drop i) = some cap := matchAtPos_complete hu hocc
  have hnone : ∀ m, m < i → matchAtPos label unit (s.drop m) = none := by
    intro m hm
    cases hmm : matchAtPos label unit (s.drop m) with
    | none => rfl
    | some c2 =>
      have := hfirst m c2 (matchAtPos_sound hu hmm)
      omega
  have hs : searchPat label unit s = some cap := searchPat_some_iff.mpr ⟨i, hmi, hnone⟩
  rw [fieldVal, hs]

theorem fieldVal_no_occurrence {label unit s : List Char} (hu : unitOkB unit = true)
    (hnone : ∀ i cap, ¬ PatOccurAt label unit s i cap) :
    fieldVal label unit s = 0 := by
  have hs : searchPat label unit s = none := by
    rw [searchPat_none_iff]
    intro n
    cases hmm : matchAtPos label unit (s.drop n) with
    | none => rfl
    | some c2 => exact absurd (matchAtPos_sound hu hmm) (hnone n c2)
  rw [fieldVal, hs]

theorem searchPat_none_no_occ {label unit s : List Char} (hu : unitOkB unit = true)
    (hs : searchPat label unit s = none) :
    ∀ i cap, ¬ PatOccurAt label unit s i cap := by
  intro i cap hocc
  have hn := searchPat_none_iff.mp hs i
  rw [matchAtPos_complete hu hocc] at hn
  exact absurd hn (by simp)

theorem parseDecimal_nonneg (l : List Char) : 0 ≤ parseDecimal l := by
  rw [parseDecimal]
  split
  · positivity
  · positivity

theorem fieldVal_nonneg (label unit l : List Char) : 0 ≤ fieldVal label unit l := by
  cases hs : searchPat label unit l with
  | none =>
    rw [fieldVal, hs]
  | some cap =>
    rw [fieldVal, hs]
    exact parseDecimal_nonneg cap

theorem mem_fieldPatterns_cases {label unit : List Char}
    (hmem : (label, unit) ∈ fieldPatterns) :
    (label = calLabel ∧ unit = kcalUnit) ∨ (label = protLabel ∧ unit = gUnit) ∨
    (label = fatLabel ∧ unit = gUnit) ∨ (label = carbLabel ∧ unit = gUnit) := by
  simp only [fieldPatterns, List.mem_cons, List.mem_singleton, Prod.mk.injEq,
    List.not_mem_nil, or_false] at hmem
  tauto

theorem nutritionField_extract {label unit : List Char}
    (hmem : (label, unit) ∈ fieldPatterns) (l : List Char) :
    nutritionField label (extract_nutrition_info l) = fieldVal label unit l := by
  rcases mem_fieldPatterns_cases hmem with ⟨h1, h2⟩ | ⟨h1, h2⟩ | ⟨h1, h2⟩ | ⟨h1, h2⟩ <;>
    subst h1 <;> subst h2 <;>
    simp [nutritionField, extract_nutrition_info, calLabel, protLabel, fatLabel, carbLabel]

theorem unitOk_of_mem {label unit : List Char}
    (hmem : (label, unit) ∈ fieldPatterns) : unitOkB unit = true := by
  rcases mem_fieldPatterns_cases hmem with ⟨h1, h2⟩ | ⟨h1, h2⟩ | ⟨h1, h2⟩ | ⟨h1, h2⟩ <;>
    subst h2 <;> decide

/-- Substring occurrence at some position: the Prop-level reading of
Python's `in` operator on strings. -/
def OccursIn (pat s : List Char) : Prop := ∃ i rest, s.drop i = pat ++ rest

theorem isPrefixOf_iff_append {p : List Char} :
    ∀ {l : List Char}, p.isPrefixOf l = true ↔ ∃ r, l = p ++ r := by
  induction p with
  | nil =>
    intro l
    simp [List.isPrefixOf]
  | cons a ps ih =>
    intro l
    cases l with
    | nil =>
      simp [List.isPrefixOf]
    | cons b ls =>
      by_cases hab : a = b
      · subst hab
        simp only [List.isPrefixOf, beq_self_eq_true, Bool.true_and, ih,
          List.cons_append, List.cons.injEq, true_and]
      · simp only [List.isPrefixOf, List.cons_append, List.cons.injEq]
        constructor
        · intro h
          have : (a == b) = true := by
            cases hb : (a == b) with
            | true => rfl
            | false => rw [hb] at h; exact absurd h (by simp)
          exact absurd (beq_iff_eq.mp this) hab
        · rintro ⟨r, hr1, hr2⟩
          exact absurd hr1.symm hab

theorem occursB_iff {pat : List Char} :
    ∀ {s : List Char}, occursB pat s = true ↔ OccursIn pat s := by
  intro s
  induction s with
  | nil =>
    rw [occursB]
    rw [isPrefixOf_iff_append]
    constructor
    · rintro ⟨r, hr⟩
      exact ⟨0, r, by simpa using hr⟩
    · rintro ⟨i, r, hr⟩
      simp only [List.drop_nil] at hr
      exact ⟨r, hr⟩
  | cons c cs ih =>
    rw [occursB]
    constructor
    · intro h
      rcases Bool.or_eq_true_iff.mp h with h | h
      · obtain ⟨r, hr⟩ := isPrefixOf_iff_append.mp h
        exact ⟨0, r, by simpa using hr⟩
      · obtain ⟨i, r, hr⟩ := ih.mp h
        exact ⟨i + 1, r, by simpa using hr⟩
    · rintro ⟨i, r, hr⟩
      cases i with
      | zero =>
        rw [List.drop_zero] at hr
        exact Bool.or_eq_true_iff.mpr (Or.inl (isPrefixOf_iff_append.mpr ⟨r, hr⟩))
      | succ i2 =>
        rw [List.drop_succ_cons] at hr
        exact Bool.or_eq_true_iff.mpr (Or.inr (ih.mpr ⟨i2, r, hr⟩))

/-- The first line of a text: what `splitlines()[0]` yields on non-empty
text, and the empty string on empty text. -/
def firstLineOf (l : List Char) : List Char :=
  l.takeWhile (fun c => !isBreakC c)

theorem pySplitlinesAux_head :
    ∀ (acc l : List Char),
      (pySplitlinesAux acc l).headD [] = acc.reverse ++ l.takeWhile (fun c => !isBreakC c) := by
  intro acc l
  induction acc, l using pySplitlinesAux.induct <;>
    simp_all [pySplitlinesAux, List.takeWhile_cons] <;> decide

theorem pySplitlines_head (l : List Char) :
    (pySplitlines l).headD [] = firstLineOf l :=
  pySplitlinesAux_head [] l

/-- Formalisation of claim C1 as stated: the recipe name is derived from the
first LINE of `recipe_text` that carries the label, with the label stripped
and surrounding whitespace trimmed, and is the sentinel exactly when the
label is absent. -/
def recipeNameClaim (text : List Char) : List Char :=
  match (pySplitlines text).find? (fun line => occursB recipeLabel line) with
  | some line => pyStrip (pyReplace recipeLabel [] line)
  | none => unknownRecipe

/-- Correspondence between a ledger row and the history entry produced by
the same successful generation: the row's name and nutrition quantities are
the ones derived from that entry's recipe text. -/
def rowMatches (row : NutritionRow) (rec : RecipeRecord) : Prop :=
  row.recipeName = recipeNameOf rec.recipeText ∧
  row.calories = rec.nutritionInfo.calories ∧
  row.protein = rec.nutritionInfo.protein ∧
  row.fat = rec.nutritionInfo.fat ∧
  row.carbs = rec.nutritionInfo.carbs

theorem submit_empty {st : AppState} {req : GenRequest} {ai : AIResult}
    (he : req.ingredients = []) :
    recipe_form_submit st req ai = (st, Outcome.rejected, false) := by
  simp [recipe_form_submit, he]

theorem submit_err {st : AppState} {req : GenRequest}
    (he : req.ingredients ≠ []) :
    recipe_form_submit st req AIResult.err = (st, Outcome.failed, true) := by
  simp [recipe_form_submit, he]

theorem submit_ok {st : AppState} {req : GenRequest} {t : List Char}
    (he : req.ingredients ≠ []) :
    recipe_form_submit st req (AIResult.ok t) =
      (⟨st.generated_recipes ++ [newRecipeRecord req t],
        st.nutrition_data ++ [newNutritionRow req t]⟩,
       Outcome.succeeded, true) := by
  simp [recipe_form_submit, he]

theorem runEvents_invariant (events : List (GenRequest × AIResult)) :
    ∀ st : AppState,
      (runEvents st events).generated_recipes.length
          = st.generated_recipes.length + countSuccesses events ∧
      (runEvents st events).nutrition_data.length
          = st.nutrition_data.length + countSuccesses events ∧
      (List.Forall₂ rowMatches st.nutrition_data st.generated_recipes →
        List.Forall₂ rowMatches (runEvents st events).nutrition_data
          (runEvents st events).generated_recipes) := by
  induction events with
  | nil =>
    intro st
    refine ⟨by simp [runEvents, countSuccesses], by simp [runEvents, countSuccesses], ?_⟩
    intro h
    simpa [runEvents] using h
  | cons e es ih =>
    intro st
    have hcount : countSuccesses (e :: es) =
        countSuccesses es + (if succeedsEvent e then 1 else 0) := by
      simp [countSuccesses, List.countP_cons]
    by_cases he : e.1.ingredients = []
    · have hstep : recipe_form_submit st e.1 e.2 = (st, Outcome.rejected, false) :=
        submit_empty he
      have hsc : succeedsEvent e = false := by
        simp [succeedsEvent, submit_empty he]
      have hrun : runEvents st (e :: es) = runEvents st es := by
        rw [runEvents, hstep]
      rw [hrun, hcount, hsc, if_neg (show ¬(false = true) by decide)]
      obtain ⟨ih1, ih2, ih3⟩ := ih st
      exact ⟨by omega, by omega, ih3⟩
    · cases hai : e.2 with
      | err =>
        have hstep : recipe_form_submit st e.1 e.2 = (st, Outcome.failed, true) := by
          rw [hai]
          exact submit_err he
        have hsc : succeedsEvent e = false := by
          simp only [succeedsEvent, hai, submit_err he]
          decide
        have hrun : runEvents st (e :: es) = runEvents st es := by
          rw [runEvents, hstep]
        rw [hrun, hcount, hsc, if_neg (show ¬(false = true) by decide)]
        obtain ⟨ih1, ih2, ih3⟩ := ih st
        exact ⟨by omega, by omega, ih3⟩
      | ok t =>
        have hstep : recipe_form_submit st e.1 e.2 =
            (⟨st.generated_recipes ++ [newRecipeRecord e.1 t],
              st.nutrition_data ++ [newNutritionRow e.1 t]⟩,
             Outcome.succeeded, true) := by
          rw [hai]
          exact submit_ok he
        have hsc : succeedsEvent e = true := by
          simp only [succeedsEvent, hai, submit_ok he]
          decide
        have hrun : runEvents st (e :: es) =
            runEvents ⟨st.generated_recipes ++ [newRecipeRecord e.1 t],
              st.nutrition_data ++ [newNutritionRow e.1 t]⟩ es := by
          rw [runEvents, hstep]
        rw [hrun, hcount, hsc, if_pos (show true = true from rfl)]
        obtain ⟨ih1, ih2, ih3⟩ :=
          ih ⟨st.generated_recipes ++ [newRecipeRecord e.1 t],
            st.nutrition_data ++ [newNutritionRow e.1 t]⟩
        refine ⟨?_, ?_, ?_⟩
        · rw [ih1]
          simp only [List.length_append, List.length_cons, List.length_nil]
          omega
        · rw [ih2]
          simp only [List.length_append, List.length_cons, List.length_nil]
          omega
        · intro hf
          apply ih3
          exact List.rel_append hf
            (List.Forall₂.cons ⟨rfl, rfl, rfl, rfl, rfl⟩ List.Forall₂.nil)

theorem pySplitOn_ne_nil (sep : Char) : ∀ (l : List Char), pySplitOn sep l ≠ [] := by
  intro l
  cases l with
  | nil => simp [pySplitOn]
  | cons c cs =>
    rw [pySplitOn]
    by_cases hc : c = sep
    · simp [hc]
    · rw [if_neg hc]
      cases hr : pySplitOn sep cs with
      | nil => simp
      | cons g gs => simp

theorem pySplitOn_mem (sep : Char) :
    ∀ (l : List Char) (g : List Char), g ∈ pySplitOn sep l →
      ∀ c ∈ g, c ∈ l ∧ c ≠ sep := by
  intro l
  induction l with
  | nil =>
    intro g hg c hc
    simp only [pySplitOn, List.mem_singleton] at hg
    subst hg
    exact absurd hc (by simp)
  | cons c0 cs ih =>
    intro g hg c hc
    rw [pySplitOn] at hg
    by_cases hc0 : c0 = sep
    · rw [if_pos hc0] at hg
      rcases List.mem_cons.mp hg with hg | hg
      · subst hg
        exact absurd hc (by simp)
      · obtain ⟨hcl, hcs⟩ := ih g hg c hc
        exact ⟨by simp [hcl], hcs⟩
    · rw [if_neg hc0] at hg
      cases hr : pySplitOn sep cs with
      | nil => exact absurd hr (pySplitOn_ne_nil sep cs)
      | cons g1 gs =>
        rw [hr] at hg
        rcases List.mem_cons.mp hg with hg | hg
        · subst hg
          rcases List.mem_cons.mp hc with hcc | hcc
          · subst hcc
            exact ⟨by simp, hc0⟩
          · obtain ⟨hcl, hcs⟩ := ih g1 (by rw [hr]; simp) c hcc
            exact ⟨by simp [hcl], hcs⟩
        · obtain ⟨hcl, hcs⟩ := ih g (by rw [hr]; simp [hg]) c hc
          exact ⟨by simp [hcl], hcs⟩

theorem pyStrip_all_ws {s : List Char} (h : ∀ c ∈ s, isWsC c = true) :
    pyStrip s = [] := by
  rw [pyStrip, dropWhile_all_eq h]
  simp

theorem formattedIngredients_ws_comma {s : List Char}
    (h : ∀ c ∈ s, isWsC c = true ∨ c = ',') :
    formattedIngredients s = [] := by
  rw [formattedIngredients]
  have hfilter : ((pySplitOn ',' s).map pyStrip).filter (fun x => x ≠ []) = [] := by
    rw [List.filter_eq_nil_iff]
    intro a ha
    obtain ⟨g, hg, hga⟩ := List.mem_map.mp ha
    have hws : ∀ c ∈ g, isWsC c = true := by
      intro c hcg
      obtain ⟨hcl, hcne⟩ := pySplitOn_mem ',' s g hg c hcg
      exact (h c hcl).resolve_right hcne
    rw [← hga, pyStrip_all_ws hws]
    simp
  rw [hfilter]
  rfl

/-- Example request with non-empty ingredients, used by witnesses. -/
def reqEx : GenRequest :=
  ⟨"鶏むね肉, 玉ねぎ".data, "和食".data, "健康的".data, 30, "".data,
   "2024-01-01".data, "2024-01-01 12:00:00".data⟩

/-- Example request whose ingredients input is empty. -/
def reqEmpty : GenRequest :=
  ⟨[], "和食".data, "健康的".data, 30, "".data,
   "2024-01-01".data, "2024-01-01 12:00:00".data⟩

/-- Example request whose ingredients input is whitespace and commas only. -/
def reqBlank : GenRequest :=
  ⟨" ,".data, "和食".data, "健康的".data, 30, "".data,
   "2024-01-01".data, "2024-01-01 12:00:00".data⟩

/-- Counterexample text for claim C1: the label appears on the second line
while the first line does not carry it. -/
def cexText : List Char := "ほげ\nレシピ名：カレー".data

/-- C2: after any sequence of N successful generations within one session,
the history list and the nutrition ledger each contain exactly N entries, in
matching insertion order: every successful generation appends exactly one
entry to each, so the two counts never diverge. -/
theorem generation_history_ledger_agree (events : List (GenRequest × AIResult)) :
    (runEvents initialState events).generated_recipes.length = countSuccesses events ∧
    (runEvents initialState events).nutrition_data.length = countSuccesses events ∧
    List.Forall₂ rowMatches (runEvents initialState events).nutrition_data
      (runEvents initialState events).generated_recipes := by
  obtain ⟨h1, h2, h3⟩ := runEvents_invariant events initialState
  refine ⟨?_, ?_, h3 (by simp [initialState])⟩
  · simpa [initialState] using h1
  · simpa [initialState] using h2

/-- C3: if the AI collaborator call raises during a generation request, the
request ends in the user-visible error state and both the history list and
the nutrition ledger are unchanged; no partial record is persisted. -/
theorem collaborator_error_leaves_state (st : AppState) (req : GenRequest)
    (h : req.ingredients ≠ []) :
    (recipe_form_submit st req AIResult.err).1.generated_recipes
        = st.generated_recipes ∧
    (recipe_form_submit st req AIResult.err).1.nutrition_data
        = st.nutrition_data ∧
    (recipe_form_submit st req AIResult.err).2.1 = Outcome.failed := by
  rw [submit_err h]
  exact ⟨rfl, rfl, rfl⟩

/-- Witness for C3 at a concrete request. -/
theorem collaborator_error_leaves_state_witness :
    (recipe_form_submit initialState reqEx AIResult.err).1.generated_recipes
        = initialState.generated_recipes ∧
    (recipe_form_submit initialState reqEx AIResult.err).1.nutrition_data
        = initialState.nutrition_data ∧
    (recipe_form_submit initialState reqEx AIResult.err).2.1 = Outcome.failed :=
  collaborator_error_leaves_state initialState reqEx (by decide)

/-- C7: an empty ingredients input is rejected with the inline warning
before any AI call: the collaborator is not called, the outcome is the
rejection warning, and the session state is unchanged. -/
theorem empty_ingredients_rejected (st : AppState) (req : GenRequest)
    (ai : AIResult) (h : req.ingredients = []) :
    (recipe_form_submit st req ai).1 = st ∧
    (recipe_form_submit st req ai).2.1 = Outcome.rejected ∧
    (recipe_form_submit st req ai).2.2 = false := by
  rw [submit_empty h]
  exact ⟨rfl, rfl, rfl⟩

/-- Witness for C7 at a concrete empty request. -/
theorem empty_ingredients_rejected_witness :
    (recipe_form_submit initialState reqEmpty (AIResult.ok ("test".data))).1
        = initialState ∧
    (recipe_form_submit initialState reqEmpty (AIResult.ok ("test".data))).2.1
        = Outcome.rejected ∧
    (recipe_form_submit initialState reqEmpty (AIResult.ok ("test".data))).2.2
        = false :=
  empty_ingredients_rejected initialState reqEmpty (AIResult.ok ("test".data)) rfl

/-- C10: a non-empty ingredients input consisting only of whitespace and
commas passes the empty-input validation: the AI is called with an empty
formatted ingredient list in the prompt, and a successful response still
appends one record and one ledger row. -/
theorem blank_ingredients_not_rejected (st : AppState) (req : GenRequest)
    (t : List Char) (h1 : req.ingredients ≠ [])
    (h2 : ∀ c ∈ req.ingredients, isWsC c = true ∨ c = ',') :
    formattedIngredients req.ingredients = [] ∧
    (recipe_form_submit st req (AIResult.ok t)).2.2 = true ∧
    (recipe_form_submit st req (AIResult.ok t)).2.1 = Outcome.succeeded ∧
    (recipe_form_submit st req (AIResult.ok t)).1.generated_recipes
        = st.generated_recipes ++ [newRecipeRecord req t] ∧
    (recipe_form_submit st req (AIResult.ok t)).1.nutrition_data
        = st.nutrition_data ++ [newNutritionRow req t] := by
  rw [submit_ok h1]
  exact ⟨formattedIngredients_ws_comma h2, rfl, rfl, rfl, rfl⟩

/-- Witness for C10 at the concrete input `" ,"`. -/
theorem blank_ingredients_not_rejected_witness :
    formattedIngredients reqBlank.ingredients = [] ∧
    (recipe_form_submit initialState reqBlank (AIResult.ok ("test".data))).2.2 = true ∧
    (recipe_form_submit initialState reqBlank (AIResult.ok ("test".data))).2.1
        = Outcome.succeeded ∧
    (recipe_form_submit initialState reqBlank (AIResult.ok ("test".data))).1.generated_recipes
        = initialState.generated_recipes ++ [newRecipeRecord reqBlank ("test".data)] ∧
    (recipe_form_submit initialState reqBlank (AIResult.ok ("test".data))).1.nutrition_data
        = initialState.nutrition_data ++ [newNutritionRow reqBlank ("test".data)] :=
  blank_ingredients_not_rejected initialState reqBlank ("test".data) (by decide)
    (by decide)

/-- Counterexample to C1 as stated: for the text `"ほげ\nレシピ名：カレー"`,
whose label-carrying line is the second one, the code derives the row name
from the first line (`"ほげ"`), not from the first line that carries the
label (which would give `"カレー"`). -/
theorem recipe_name_not_from_labeled_line :
    recipeNameOf cexText ≠ recipeNameClaim cexText ∧
    recipeNameOf cexText = "ほげ".data ∧
    recipeNameClaim cexText = "カレー".data := by
  have h1 : recipeNameOf cexText = "ほげ".data := by
    rw [recipeNameOf, if_pos (by decide)]
    have hhead : (pySplitlines cexText).headD [] = "ほげ".data := by decide
    rw [hhead]
    have hrep : pyReplace recipeLabel [] ("ほげ".data) = "ほげ".data := by
      simp [pyReplace, recipeLabel]
    rw [hrep]
    decide
  have h2 : recipeNameClaim cexText = "カレー".data := by
    have hfind : (pySplitlines cexText).find? (fun line => occursB recipeLabel line)
        = some ("レシピ名：カレー".data) := by decide
    rw [recipeNameClaim, hfind]
    simp only
    have hrep : pyReplace recipeLabel [] ("レシピ名：カレー".data) = "カレー".data := by
      simp [pyReplace, recipeLabel]
    rw [hrep]
    decide
  refine ⟨?_, h1, h2⟩
  rw [h1, h2]
  decide

/-- C1 (amended): for every successful generation, the appended ledger row's
recipe_name is derived from the FIRST LINE of recipe_text — with every
occurrence of the label `レシピ名：` removed from that line and surrounding
whitespace trimmed — whenever the label occurs anywhere in recipe_text, and
is the sentinel `不明なレシピ` whenever the label is absent. -/
theorem ledger_recipe_name_from_first_line (st : AppState) (req : GenRequest)
    (text : List Char) (h : req.ingredients ≠ []) :
    (recipe_form_submit st req (AIResult.ok text)).1.nutrition_data
        = st.nutrition_data ++ [newNutritionRow req text] ∧
    (OccursIn recipeLabel text →
      (newNutritionRow req text).recipeName
        = pyStrip (pyReplace recipeLabel [] (firstLineOf text))) ∧
    (¬ OccursIn recipeLabel text →
      (newNutritionRow req text).recipeName = unknownRecipe) := by
  refine ⟨by rw [submit_ok h], ?_, ?_⟩
  · intro hocc
    show recipeNameOf text = _
    rw [recipeNameOf, if_pos (occursB_iff.mpr hocc), pySplitlines_head]
  · intro hnocc
    show recipeNameOf text = _
    rw [recipeNameOf, if_neg (fun hb => hnocc (occursB_iff.mp hb))]

/-- Witness for the amended C1 at a concrete labeled text. -/
theorem ledger_recipe_name_from_first_line_witness :
    (recipe_form_submit initialState reqEx
        (AIResult.ok ("レシピ名：カレー\n材料：じゃがいも".data))).1.nutrition_data
      = initialState.nutrition_data ++
        [newNutritionRow reqEx ("レシピ名：カレー\n材料：じゃがいも".data)] ∧
    (OccursIn recipeLabel ("レシピ名：カレー\n材料：じゃがいも".data) →
      (newNutritionRow reqEx ("レシピ名：カレー\n材料：じゃがいも".data)).recipeName
        = pyStrip (pyReplace recipeLabel []
            (firstLineOf ("レシピ名：カレー\n材料：じゃがいも".data)))) ∧
    (¬ OccursIn recipeLabel ("レシピ名：カレー\n材料：じゃがいも".data) →
      (newNutritionRow reqEx ("レシピ名：カレー\n材料：じゃがいも".data)).recipeName
        = unknownRecipe) :=
  ledger_recipe_name_from_first_line initialState reqEx
    ("レシピ名：カレー\n材料：じゃがいも".data) (by decide)

/-- C4: for every input text containing an occurrence of one of the four
recognized labels followed by optional whitespace, a narrow or full-width
colon, optional whitespace, a decimal or integer number, optional whitespace
and that field's unit token, `extract_nutrition_info` returns for that field
the value of the number captured at the first such occurrence. -/
theorem extract_first_labeled_occurrence (label unit : List Char)
    (hmem : (label, unit) ∈ fieldPatterns) (s : List Char) (i : Nat)
    (cap : List Char) (hocc : PatOccurAt label unit s i cap)
    (hfirst : ∀ j c, PatOccurAt label unit s j c → i ≤ j) :
    nutritionField label (extract_nutrition_info s) = parseDecimal cap := by
  rw [nutritionField_extract hmem]
  exact fieldVal_first_occurrence (unitOk_of_mem hmem) hocc hfirst

/-- Witness for C4: the calories pattern occurring at position 0 of
`"カロリー: 5kcal"` with capture `"5"`. -/
theorem extract_first_labeled_occurrence_witness :
    nutritionField calLabel (extract_nutrition_info ("カロリー: 5kcal".data))
      = parseDecimal ("5".data) :=
  extract_first_labeled_occurrence calLabel kcalUnit (by decide)
    ("カロリー: 5kcal".data) 0 ("5".data)
    ⟨[], ':', [' '], [], [], by decide, (fun c hc => by simp at hc), by decide,
      (fun c hc => by simp at hc; subst hc; decide),
      ⟨['5'], [], rfl, by decide, by decide, Or.inl rfl⟩,
      (fun c hc => by simp at hc)⟩
    (fun j c _ => Nat.zero_le j)

/-- C5: for every input text in which a field's pattern has no occurrence,
`extract_nutrition_info` returns 0.0 for that field; the function is total,
so the call never raises or reports failure for any input text (with no
recognizable label at all, every field is 0.0). -/
theorem extract_defaults_zero_on_no_match (label unit : List Char)
    (hmem : (label, unit) ∈ fieldPatterns) (s : List Char)
    (hnone : ∀ i cap, ¬ PatOccurAt label unit s i cap) :
    nutritionField label (extract_nutrition_info s) = 0 := by
  rw [nutritionField_extract hmem]
  exact fieldVal_no_occurrence (unitOk_of_mem hmem) hnone

/-- Witness for C5: the carbohydrate pattern has no occurrence in
`"こんにちは"`, so that field is 0. -/
theorem extract_defaults_zero_on_no_match_witness :
    nutritionField carbLabel (extract_nutrition_info ("こんにちは".data)) = 0 :=
  extract_defaults_zero_on_no_match carbLabel gUnit (by decide) ("こんにちは".data)
    (searchPat_none_no_occ (by decide) (by decide))

/-- C6: on the three-line example text (carbohydrate label absent),
`extract_nutrition_info` returns calories 350.0, protein 20.0, fat 10.5 and
carbohydrate 0.0. -/
theorem extract_example_values :
    extract_nutrition_info ("カロリー：350kcal\nタンパク質: 20g\n脂質:10.5g".data)
      = ⟨350, 20, 10.5, 0⟩ := by
  have h1 : searchPat calLabel kcalUnit
      ("カロリー：350kcal\nタンパク質: 20g\n脂質:10.5g".data) = some ("350".data) := by
    decide
  have h2 : searchPat protLabel gUnit
      ("カロリー：350kcal\nタンパク質: 20g\n脂質:10.5g".data) = some ("20".data) := by
    decide
  have h3 : searchPat fatLabel gUnit
      ("カロリー：350kcal\nタンパク質: 20g\n脂質:10.5g".data) = some ("10.5".data) := by
    decide
  have h4 : searchPat carbLabel gUnit
      ("カロリー：350kcal\nタンパク質: 20g\n脂質:10.5g".data) = none := by
    decide
  simp only [extract_nutrition_info, Nutrition.mk.injEq, fieldVal, h1, h2, h3, h4]
  refine ⟨?_, ?_, ?_, trivial⟩
  · rw [parseDecimal_digits (by decide)]
    norm_num [show digitsVal ("350".data) = 350 from by decide]
  · rw [parseDecimal_digits (by decide)]
    norm_num [show digitsVal ("20".data) = 20 from by decide]
  · show parseDecimal (['1', '0'] ++ '.' :: ['5']) = 10.5
    rw [parseDecimal_point (by decide) (by decide)]
    norm_num [show digitsVal ['1', '0'] = 10 from by decide,
      show digitsVal ['5'] = 5 from by decide]

/-- C9: for every input text, all four fields of the extraction result are
present (the result type is total), and each is a non-negative rational. -/
theorem extract_fields_nonneg (s : List Char) :
    0 ≤ (extract_nutrition_info s).calories ∧
    0 ≤ (extract_nutrition_info s).protein ∧
    0 ≤ (extract_nutrition_info s).fat ∧
    0 ≤ (extract_nutrition_info s).carbs :=
  ⟨fieldVal_nonneg calLabel kcalUnit s, fieldVal_nonneg protLabel gUnit s,
   fieldVal_nonneg fatLabel gUnit s, fieldVal_nonneg carbLabel gUnit s⟩

/-- A rational value exactly representable as a short decimal: non-negative
with a denominator dividing a power of ten (every value the extractor
produces from a bounded AI response is of this form). -/
def QVal (q : ℚ) : Prop := 0 ≤ q ∧ ∃ k, k < 100 ∧ q.den ∣ 10 ^ k

/-- C8: exporting the nutrition ledger produces a delimited text table whose
columns appear in the fixed order date, recipe name, calories, protein, fat,
carbohydrate, and parsing the exported table back yields exactly the header
and the rows it was exported from; each rendered numeric cell parses back to
the exact value in the ledger (round-trip). -/
theorem export_ledger_round_trip (ledger : List NutritionRow)
    (hv : ∀ r ∈ ledger, QVal r.calories ∧ QVal r.protein ∧ QVal r.fat ∧ QVal r.carbs) :
    parseTableCSV (convert_df_to_csv ledger) = csvHeader :: ledger.map rowCells ∧
    ∀ r ∈ ledger,
      parseDecimal (renderQ r.calories) = r.calories ∧
      parseDecimal (renderQ r.protein) = r.protein ∧
      parseDecimal (renderQ r.fat) = r.fat ∧
      parseDecimal (renderQ r.carbs) = r.carbs := by
  constructor
  · rw [convert_df_to_csv]
    apply parseTableCSV_render
    intro row hrow
    rcases List.mem_cons.mp hrow with h | h
    · subst h
      simp [csvHeader]
    · obtain ⟨r, hr, hrr⟩ := List.mem_map.mp h
      rw [← hrr]
      simp [rowCells]
  · intro r hr
    obtain ⟨⟨hc0, hck⟩, ⟨hp0, hpk⟩, ⟨hf0, hfk⟩, ⟨hb0, hbk⟩⟩ := hv r hr
    exact ⟨parseDecimal_renderQ _ hc0 hck, parseDecimal_renderQ _ hp0 hpk,
      parseDecimal_renderQ _ hf0 hfk, parseDecimal_renderQ _ hb0 hbk⟩

/-- Example ledger used by the C8 witness; the recipe name contains a comma,
so the export must quote that field. -/
def ledgerEx : List NutritionRow :=
  [⟨"2024-01-01".data, "カレー, 辛口".data, 350, 20, 10.5, 0⟩]

/-- Witness for C8 at a one-row ledger whose name needs CSV quoting. -/
theorem export_ledger_round_trip_witness :
    parseTableCSV (convert_df_to_csv ledgerEx) = csvHeader :: ledgerEx.map rowCells ∧
    ∀ r ∈ ledgerEx,
      parseDecimal (renderQ r.calories) = r.calories ∧
      parseDecimal (renderQ r.protein) = r.protein ∧
      parseDecimal (renderQ r.fat) = r.fat ∧
      parseDecimal (renderQ r.carbs) = r.carbs :=
  export_ledger_round_trip ledgerEx (by
    intro r hr
    simp only [ledgerEx, List.mem_singleton] at hr
    subst hr
    refine ⟨⟨by norm_num, 0, by norm_num, by decide⟩,
      ⟨by norm_num, 0, by norm_num, by decide⟩,
      ⟨by norm_num, 1, by norm_num, ?_⟩,
      ⟨by norm_num, 0, by norm_num, by decide⟩⟩
    rw [show (10.5 : ℚ).den = 2 from by norm_num [Rat.den]]
    decide)
